import Mathlib

/-!
Verification of the Louvain community-detection engine of this repository
(`src/python/louvain.py`) against its natural-language specification.

The Python code is shallowly embedded: Python `float` becomes `ℚ` (exact
arithmetic; the spec tolerances of `1e-9` are far larger than any value
difference produced by the small rational inputs used here), Python `dict`
(which preserves insertion order, and whose iteration order the algorithm
observes) becomes an insertion-ordered association list with dictionary
lookup/update/delete semantics, Python lists become Lean lists, and the
ambient `random.shuffle` of the driver becomes an explicit order oracle
parameter (the source has no seed control; each inner pass consumes the next
oracle entry).  The `raise Exception(...)` in the driver becomes `Except`.

Division by zero follows Lean's `ℚ` convention (`x / 0 = 0`); the embedded
code only divides by `m`, and every theorem below either fixes a concrete
structure with `m ≠ 0` or handles the `m = 0` case explicitly.
-/

set_option maxRecDepth 8000
set_option maxHeartbeats 2000000

unseal Rat.add Rat.sub Rat.mul Rat.inv

/-- Insertion-ordered dictionary with `ℕ` keys and `ℚ` values, modelling a
Python `dict` as used for `node_communities_weights` and
`edges_for_community`. -/
abbrev WDict := List (ℕ × ℚ)

/-- Python `d[k]` / `d.get(k)`: first (unique) occurrence of the key. -/
def dictGet : WDict → ℕ → Option ℚ
  | [], _ => none
  | (k, v) :: t, k0 => if k = k0 then some v else dictGet t k0

/-- Python `d[k] = v`: update in place keeping the key's position, or append
a fresh key at the end (insertion order). -/
def dictSet : WDict → ℕ → ℚ → WDict
  | [], k0, v0 => [(k0, v0)]
  | (k, v) :: t, k0, v0 => if k = k0 then (k, v0) :: t else (k, v) :: dictSet t k0 v0

/-- Python `del d[k]`. -/
def dictDel (d : WDict) (k0 : ℕ) : WDict := d.filter (fun p => p.1 ≠ k0)

/-- Python `d[k] = d.get(k, 0) + w` accumulation pattern (the
`if k in d: d[k] += w else: d[k] = w` idiom of the source). -/
def dictAdd (d : WDict) (k0 : ℕ) (w : ℚ) : WDict :=
  match dictGet d k0 with
  | some v => dictSet d k0 (v + w)
  | none => dictSet d k0 w

/-- `List.modify` written out, so its unfolding behaviour is fully local. -/
def listModify : List α → ℕ → (α → α) → List α
  | [], _, _ => []
  | x :: t, 0, f => f x :: t
  | x :: t, n + 1, f => x :: listModify t n f

/-- `Community` of `louvain.py` (`id`, member `nodes`, cached
`total_degree`). -/
structure Community where
  id : ℕ
  nodes : List ℕ
  total_degree : ℚ
deriving DecidableEq, Repr, Inhabited

/-- `Structure` of `louvain.py`.  `edges` and `node_communities_weights` are
indexed by node id (the Python `defaultdict`/list indexed 0..N-1);
`last_modularity = none` models Python `None`. -/
structure Structure where
  communities : List Community
  edges : List (List (ℕ × ℚ))
  orig_edges : List (List (ℕ × ℚ))
  m : ℚ
  node_community : List ℕ
  node_selfreference : List ℚ
  origin_nodes_community : List ℕ
  last_modularity : Option ℚ
  node_degrees : List ℚ
  node_communities_weights : List WDict
deriving DecidableEq, Repr, Inhabited

/-- Community of node `u` (`self.node_community[node_index]`). -/
def commOf (s : Structure) (u : ℕ) : ℕ := s.node_community.getD u 0

/-- `Structure.node_communities_compute`: rebuild node `u`'s sparse
community-weight dictionary from scratch, in neighbour order. -/
def node_communities_compute (s : Structure) (u : ℕ) : WDict :=
  (s.edges.getD u []).foldl (fun d p => dictAdd d (commOf s p.1) p.2) []

/-- `Structure.community_total_degree_compute`: sum of cached degrees of a
community's members. -/
def community_total_degree_compute (s : Structure) (c : ℕ) : ℚ :=
  ((s.communities.getD c default).nodes.map (fun u => s.node_degrees.getD u 0)).sum

/-- `Structure.init_caches(nodes_len)`: recompute `node_degrees`, every
community's `total_degree`, and `node_communities_weights` from scratch. -/
def init_caches (s : Structure) (nodes_len : ℕ) : Structure :=
  let degs := (List.range nodes_len).map
    (fun u => s.node_selfreference.getD u 0 + ((s.edges.getD u []).map (fun p => p.2)).sum)
  let s1 := { s with node_degrees := degs }
  let cs := s1.communities.map (fun c => { c with total_degree := community_total_degree_compute s1 c.id })
  let s2 := { s1 with communities := cs }
  { s2 with node_communities_weights := (List.range nodes_len).map (node_communities_compute s2) }

/-- Append one directed adjacency entry (`self.edges[i].append(p)`). -/
def pushEdge (L : List (List (ℕ × ℚ))) (i : ℕ) (p : ℕ × ℚ) : List (List (ℕ × ℚ)) :=
  L.set i (L.getD i [] ++ [p])

/-- The symmetric adjacency built by the `for e in edges` loop of
`__init__`: each input edge contributes weight `1.0` in both directions. -/
def mkAdj (nodes_len : ℕ) (es : List (ℕ × ℕ)) : List (List (ℕ × ℚ)) :=
  es.foldl (fun L e => pushEdge (pushEdge L e.2 (e.1, 1)) e.1 (e.2, 1))
    (List.replicate nodes_len [])

/-- Total weight of entries from `u` to `x` in a raw adjacency list. -/
def adjWeight (L : List (List (ℕ × ℚ))) (u x : ℕ) : ℚ :=
  (((L.getD u []).filter (fun p => p.1 = x)).map (fun p => p.2)).sum

/-- The state `Structure.__init__` builds just before its final
`init_caches` call: symmetric weight-1 adjacency, `m = len(edges) * 2`,
every node in its own community. -/
def mkBase (nodes_len : ℕ) (es : List (ℕ × ℕ)) : Structure := {
  communities := (List.range nodes_len).map (fun i => ⟨i, [i], 0⟩)
  edges := mkAdj nodes_len es
  orig_edges := mkAdj nodes_len es
  m := (es.length : ℚ) * 2
  node_community := List.range nodes_len
  node_selfreference := List.replicate nodes_len 0
  origin_nodes_community := List.range nodes_len
  last_modularity := none
  node_degrees := []
  node_communities_weights := [] }

/-- `Structure.__init__(nodes_len, edges)`: both directions of every input
edge get weight `1.0`; `m = len(edges) * 2`; every node starts in its own
community; then `init_caches`. -/
def mkStructure (nodes_len : ℕ) (es : List (ℕ × ℕ)) : Structure :=
  init_caches (mkBase nodes_len es) nodes_len

/-- `Structure.q(node_index, community_index, shared_degree, resolution)`:
the incremental modularity-gain estimator of the source, including the
"stay" branch that virtually removes the node from its own community. -/
def q (s : Structure) (node_index community_index : ℕ) (shared_degree resolution : ℚ) : ℚ :=
  let current_community := commOf s node_index
  let d_i := s.node_degrees.getD node_index 0
  if current_community = community_index then
    if (s.communities.getD community_index default).nodes.length = 1 then 0
    else
      let d_j := (s.communities.getD community_index default).total_degree - d_i
      let d_ij := shared_degree * 2
      (resolution * d_ij - (d_i * d_j) / (s.m * (1/2))) / s.m
  else
    let d_j := (s.communities.getD community_index default).total_degree
    let d_ij := shared_degree * 2
    (resolution * d_ij - (d_i * d_j) / (s.m * (1/2))) / s.m

/-- `Structure.updateBestCommunity`: scan the node's community-weight
dictionary in insertion order, consider only strictly positive shared
degrees, and keep the first community whose score strictly exceeds all
earlier ones (starting from a best score of `0`); `none` models Python
`None`. -/
def updateBestCommunity (s : Structure) (node_index : ℕ) (resolution : ℚ) : Option ℕ :=
  ((s.node_communities_weights.getD node_index []).foldl
    (fun acc p =>
      if p.2 > 0 then
        let qValue := q s node_index p.1 p.2 resolution
        if qValue > acc.1 then (qValue, some p.1) else acc
      else acc)
    ((0 : ℚ), (none : Option ℕ))).2

/-- Single neighbour-dictionary update of `moveNodeTo`: subtract the edge
weight from the old community's entry (deleting it at `≤ 0`), then add it to
the new community's entry. -/
def ncwMoveUpd (d : WDict) (old_community community : ℕ) (weight : ℚ) : WDict :=
  let d1 := match dictGet d old_community with
    | some x => if x - weight ≤ 0 then dictDel d old_community
                else dictSet d old_community (x - weight)
    | none => d
  match dictGet d1 community with
  | some y => dictSet d1 community (y + weight)
  | none => dictSet d1 community weight

/-- `Structure.moveNodeTo(node_index, community)`. -/
def moveNodeTo (s : Structure) (node_index community : ℕ) : Structure :=
  let old_community := commOf s node_index
  let node_degree := s.node_degrees.getD node_index 0
  let cs1 := listModify s.communities old_community
    (fun c => { c with nodes := c.nodes.erase node_index, total_degree := c.total_degree - node_degree })
  let cs2 := listModify cs1 community
    (fun c => { c with nodes := c.nodes ++ [node_index], total_degree := c.total_degree + node_degree })
  let ncw := (s.edges.getD node_index []).foldl
    (fun L p => L.set p.1 (ncwMoveUpd (L.getD p.1 []) old_community community p.2))
    s.node_communities_weights
  { s with communities := cs2
           node_communities_weights := ncw
           node_community := s.node_community.set node_index community }

/-- Per-community term of `Structure.compute_modularity`: internal weight
(each direction of an internal edge once, plus each member's self-loop
weight, all halved) over `m_half`, minus `resolution * (total degree /
(2 * m_half))^2`; members are scanned in ascending node order as the Python
grouping produces them. -/
def modularityTerm (s : Structure) (resolution m_half : ℚ) (c : ℕ) : ℚ :=
  let members := (List.range s.node_community.length).filter (fun u => commOf s u = c)
  let in_weight := ((members.map (fun u =>
      (((s.edges.getD u []).filter (fun p => commOf s p.1 = commOf s u)).map (fun p => p.2)).sum
      + s.node_selfreference.getD u 0)).sum) / 2
  let tot_degree := (members.map (fun u => s.node_degrees.getD u 0)).sum
  in_weight / m_half - resolution * (tot_degree / (2 * m_half)) ^ 2

/-- `Structure.compute_modularity(resolution)`: from-scratch modularity of
the current partition.  The Python code sums one term per nonempty
community (grouped via a `defaultdict` in first-occurrence order); since
`ℚ` addition is commutative the value is the sum over the distinct
community ids, which is what `dedup` provides. -/
def compute_modularity (s : Structure) (resolution : ℚ) : ℚ :=
  let m_half := s.m * (1/2)
  if m_half = 0 then 0
  else (s.node_community.dedup.map (modularityTerm s resolution m_half)).sum

/-- The driver's modularity-regression guard, line 86 of the source:
`if self.last_modularity and self.last_modularity > modularity: raise`.
Python truthiness makes both `None` and `0.0` skip the check. -/
def truthyLess (last : Option ℚ) (modularity : ℚ) : Bool :=
  match last with
  | none => false
  | some l => decide (l ≠ 0) && decide (modularity < l)

/-- One node visit of the local moving phase (`louvain`, lines 78-89):
compute the best community; move only when it is truthy (Python `if
bestCommunity` — community id `0` is falsy!) and differs from the current
community; after a move recompute the modularity at the default resolution
`1.0`, raise on a truthy strict regression, and record it. -/
def visitNode (s : Structure) (resolution : ℚ) (node_index : ℕ) :
    Except Unit (Structure × Bool) :=
  match updateBestCommunity s node_index resolution with
  | none => .ok (s, false)
  | some bestCommunity =>
    if bestCommunity ≠ 0 ∧ bestCommunity ≠ commOf s node_index then
      let s1 := moveNodeTo s node_index bestCommunity
      let modularity := compute_modularity s1 1
      if truthyLess s1.last_modularity modularity then .error ()
      else .ok ({ s1 with last_modularity := some modularity }, true)
    else .ok (s, false)

/-- The `for node_index in nodes` loop body sequence: visit each node in
order, threading the state and the `localChange` flag, propagating the
raise. -/
def localPassAux (resolution : ℚ) : List ℕ → Structure → Bool → Except Unit (Structure × Bool)
  | [], s, moved => .ok (s, moved)
  | v :: rest, s, moved =>
    match visitNode s resolution v with
    | .error e => .error e
    | .ok r => localPassAux resolution rest r.1 (moved || r.2)

/-- One inner pass of the local moving phase over a given node order (the
result of the driver's unconditional `random.shuffle`). -/
def localPass (s : Structure) (resolution : ℚ) (order : List ℕ) :
    Except Unit (Structure × Bool) :=
  localPassAux resolution order s false

/-- The inner `while localChange` loop: repeat passes until one makes no
move; `shuffle k n` is the order oracle for pass number `k` on `n` nodes;
returns the state, whether any pass moved, and the next pass number.
`fuel` bounds the number of passes (the source's loop has no bound). -/
def innerLoop (resolution : ℚ) (shuffle : ℕ → ℕ → List ℕ) :
    ℕ → ℕ → Structure → Except Unit (Structure × Bool × ℕ)
  | 0, k, s => .ok (s, false, k)
  | fuel + 1, k, s => do
    let r ← localPass s resolution (shuffle k s.communities.length)
    if r.2 then do
      let r2 ← innerLoop resolution shuffle fuel (k + 1) r.1
      .ok (r2.1, true, r2.2.2)
    else .ok (r.1, false, k + 1)

/-- `(old community id, new dense id)` pairs for the nonempty communities,
in list order (`community_id_map` of `merge_nodes`). -/
def buildCmap : List Community → ℕ → List (ℕ × ℕ)
  | [], _ => []
  | c :: t, n => if c.nodes.length > 0 then (c.id, n) :: buildCmap t (n + 1) else buildCmap t n

/-- Lookup in `community_id_map` (total with junk default `0`; the source
would raise `KeyError`, which never happens on the states reached here). -/
def cmapGet (l : List (ℕ × ℕ)) (k : ℕ) : ℕ :=
  ((l.find? (fun p => p.1 = k)).map (fun p => p.2)).getD 0

/-- The `(new-community-key, weight)` pairs scanned by the
`for node in c.nodes: for neighbor, weight in self.edges[node]` loop of
`merge_nodes`, in exactly that iteration order. -/
def efcPairs (s : Structure) (cmap : List (ℕ × ℕ)) (cid : ℕ) : List (ℕ × ℚ) :=
  (s.communities.getD cid default).nodes.flatMap
    (fun node => (s.edges.getD node []).map (fun p => (cmapGet cmap (commOf s p.1), p.2)))

/-- `edges_for_community` of one community in `merge_nodes`: accumulate, in
member-then-neighbour order, the edge weights keyed by the neighbour's new
community id. -/
def edgesForCommunity (s : Structure) (cmap : List (ℕ × ℕ)) (cid : ℕ) : WDict :=
  (efcPairs s cmap cid).foldl (fun d e => dictAdd d e.1 e.2) []

/-- `Structure.merge_nodes`: collapse every nonempty community into a single
node of the next level.  The Python loop is rendered as per-community maps
over `community_id_map`; the accumulated quantities (new adjacency, new
self-references, new `m`) are exactly those of the source loop, whose
accumulation order only affects the order of `ℚ` additions. -/
def merge_nodes (s : Structure) : Structure :=
  let cmap := buildCmap s.communities 0
  let K := cmap.length
  let ncs := cmap.map (fun p =>
    ({ id := p.2, nodes := [p.2],
       total_degree := (s.communities.getD p.1 default).total_degree } : Community))
  let nedges := cmap.map (fun p => (edgesForCommunity s cmap p.1).filter (fun e => e.1 ≠ p.2))
  let nsr := cmap.map (fun p =>
    (((s.communities.getD p.1 default).nodes.map (fun u => s.node_selfreference.getD u 0)).sum)
    + (((edgesForCommunity s cmap p.1).filter (fun e => e.1 = p.2)).map (fun e => e.2)).sum)
  let m := (cmap.map (fun p => ((edgesForCommunity s cmap p.1).map (fun e => e.2)).sum)).sum
  let base := { s with
    communities := ncs
    node_selfreference := nsr
    origin_nodes_community :=
      s.origin_nodes_community.map (fun o => cmapGet cmap (commOf s o))
    edges := nedges
    m := m
    node_community := List.range K }
  init_caches base K

/-- The `community_id_map` built by `merge_nodes` on the current state. -/
def cmapOf (s : Structure) : List (ℕ × ℕ) := buildCmap s.communities 0

/-- The intermediate state `merge_nodes` hands to `init_caches`: the new
communities, adjacency, self-references, origin map and `m`, with the caches
still to be rebuilt.  `merge_nodes s` is definitionally
`init_caches (mergeBase s) (cmapOf s).length`. -/
def mergeBase (s : Structure) : Structure :=
  { s with
    communities := (cmapOf s).map (fun p =>
      ({ id := p.2, nodes := [p.2],
         total_degree := (s.communities.getD p.1 default).total_degree } : Community))
    node_selfreference := (cmapOf s).map (fun p =>
      (((s.communities.getD p.1 default).nodes.map (fun u => s.node_selfreference.getD u 0)).sum)
      + (((edgesForCommunity s (cmapOf s) p.1).filter (fun e => e.1 = p.2)).map
          (fun e => e.2)).sum)
    origin_nodes_community :=
      s.origin_nodes_community.map (fun o => cmapGet (cmapOf s) (commOf s o))
    edges := (cmapOf s).map (fun p =>
      (edgesForCommunity s (cmapOf s) p.1).filter (fun e => e.1 ≠ p.2))
    m := ((cmapOf s).map (fun p => ((edgesForCommunity s (cmapOf s) p.1).map
        (fun e => e.2)).sum)).sum
    node_community := List.range (cmapOf s).length }

/-- The outer `while someChange` loop of `Structure.louvain`: run the local
moving phase to convergence, and aggregate whenever it moved anything.  The
`randomize` flag is carried but — exactly as in the source, where the
parameter is never read and `random.shuffle` always runs — it has no effect
on the computation. -/
def louvainOuter (resolution : ℚ) (shuffle : ℕ → ℕ → List ℕ) :
    ℕ → ℕ → Structure → Except Unit Structure
  | 0, _, s => .ok s
  | fuel + 1, k, s => do
    let r ← innerLoop resolution shuffle (fuel + 1) k s
    if r.2.1 then louvainOuter resolution shuffle fuel r.2.2 (merge_nodes r.1)
    else .ok r.1

/-- `Structure.louvain(currentResolution, randomize)` with the ambient
`random.shuffle` represented by the order oracle `shuffle`. -/
def louvain (s : Structure) (resolution : ℚ) (randomize : Bool)
    (shuffle : ℕ → ℕ → List ℕ) (fuel : ℕ) : Except Unit Structure :=
  let _ := randomize
  louvainOuter resolution shuffle fuel 0 s

/-- The reference 6-node graph used throughout the source's own test block
(`if __name__ == "__main__"`). -/
def demoEdges : List (ℕ × ℕ) := [(0,1), (0,2), (2,3), (3,4), (3,5), (4,5)]

deriving instance DecidableEq for Except

/-- Total edge weight from node `u` to the nodes currently assigned to
community `c`, recomputed from scratch (`Structure.shared_degree`, and the
value `node_communities_compute` stores for `c`). -/
def sharedSum (s : Structure) (u c : ℕ) : ℚ :=
  (((s.edges.getD u []).filter (fun p => commOf s p.1 = c)).map (fun p => p.2)).sum

/-- Total weight of the directed adjacency entries from `u` to `x`. -/
def edgeWeightTo (s : Structure) (u x : ℕ) : ℚ :=
  (((s.edges.getD u []).filter (fun p => p.1 = x)).map (fun p => p.2)).sum

/-- Σ `community.total_degree` over all communities (the left side of the
spec invariant `Σ community.totalDegree == m`). -/
def sumTotalDegree (s : Structure) : ℚ :=
  (s.communities.map (fun c => c.total_degree)).sum

/-- Sum of the incident (non-self) edge weights of node `u`. -/
def incidentWeight (s : Structure) (u : ℕ) : ℚ :=
  ((s.edges.getD u []).map (fun p => p.2)).sum

/-- Number of nodes at the current level. -/
def nN (s : Structure) : ℕ := s.node_community.length

/-- Number of communities at the current level. -/
def nK (s : Structure) : ℕ := s.communities.length

/-- Cached degree of node `u` (`self.node_degrees[u]`). -/
def degOf (s : Structure) (u : ℕ) : ℚ := s.node_degrees.getD u 0

/-- Self-loop weight of node `u` (`self.node_selfreference[u]`). -/
def srOf (s : Structure) (u : ℕ) : ℚ := s.node_selfreference.getD u 0

/-- Community record at index `c`. -/
def commAt (s : Structure) (c : ℕ) : Community := s.communities.getD c default

/-- Well-formedness of a `Structure`: the invariants every state produced by
`__init__`, `moveNodeTo` (with valid arguments) and `merge_nodes` satisfies.
The clauses are, in order: cache-list lengths; community ids in range;
adjacency entries point to real, distinct nodes with positive weight; the
adjacency is weight-symmetric; community ids equal their list positions;
member lists have no duplicates; member lists match `node_community` in both
directions; cached community total degrees equal the sum of their members'
cached degrees; cached node degrees equal self-loop plus incident weight;
the sparse `NodeCommunityWeights` dictionaries have in-range keys and agree
exactly with the from-scratch shared-degree sums, holding an entry if and
only if that sum is strictly positive. -/
def WF (s : Structure) : Prop :=
  s.node_degrees.length = nN s ∧
  s.node_selfreference.length = nN s ∧
  s.edges.length = nN s ∧
  s.node_communities_weights.length = nN s ∧
  (∀ u, u < nN s → commOf s u < nK s) ∧
  (∀ u, u < nN s → ∀ p ∈ s.edges.getD u [], p.1 < nN s ∧ p.1 ≠ u ∧ 0 < p.2) ∧
  (∀ u, u < nN s → ∀ x, x < nN s → edgeWeightTo s u x = edgeWeightTo s x u) ∧
  (∀ c, c < nK s → (commAt s c).id = c) ∧
  (∀ c, c < nK s → (commAt s c).nodes.Nodup) ∧
  (∀ c, c < nK s → ∀ u ∈ (commAt s c).nodes, u < nN s ∧ commOf s u = c) ∧
  (∀ c, c < nK s → ∀ u, u < nN s → commOf s u = c → u ∈ (commAt s c).nodes) ∧
  (∀ c, c < nK s → (commAt s c).total_degree
      = ∑ u ∈ Finset.range (nN s), if commOf s u = c then degOf s u else 0) ∧
  (∀ u, u < nN s → degOf s u = srOf s u + incidentWeight s u) ∧
  (∀ u, u < nN s → ∀ p ∈ s.node_communities_weights.getD u [], p.1 < nK s) ∧
  (∀ u, u < nN s → ∀ c, c < nK s → dictGet (s.node_communities_weights.getD u []) c
      = if 0 < sharedSum s u c then some (sharedSum s u c) else none)

instance (s : Structure) : Decidable (WF s) := by
  unfold WF
  infer_instance

/-- Valid constructor input: edge endpoints in range and distinct (the spec
leaves self-loop inputs explicitly undefined). -/
def ValidEdges (n : ℕ) (es : List (ℕ × ℕ)) : Prop :=
  ∀ e ∈ es, e.1 < n ∧ e.2 < n ∧ e.1 ≠ e.2

instance (n : ℕ) (es : List (ℕ × ℕ)) : Decidable (ValidEdges n es) := by
  unfold ValidEdges
  infer_instance

/-- States reachable from a fresh `Structure` by the calls the driver makes:
`moveNodeTo` with a real node, a real target community different from the
node's current one, and `merge_nodes`. -/
inductive Reachable : Structure → Prop where
  | init (n : ℕ) (es : List (ℕ × ℕ)) (h : ValidEdges n es) : Reachable (mkStructure n es)
  | move (s : Structure) (v c : ℕ) (hs : Reachable s) (hv : v < nN s) (hc : c < nK s)
      (hne : c ≠ commOf s v) : Reachable (moveNodeTo s v c)
  | merge (s : Structure) (hs : Reachable s) : Reachable (merge_nodes s)

/-- The 2-node graph with one edge: smallest input whose aggregation creates
a nonzero self-loop weight. -/
def pairStructure : Structure := mkStructure 2 [(0, 1)]

/-- State after the single possible move and one aggregation: one node with
self-loop weight `2` and no edges, `m = 2`. -/
def pairMerged : Structure := merge_nodes (moveNodeTo pairStructure 1 0)

/-- The same state aggregated a second time (the claims quantify over any
sequence of `moveNodeTo` and `merge_nodes` calls). -/
def pairMergedTwice : Structure := merge_nodes pairMerged

/-- State of the reference 6-node graph after a local-moving pass visited
nodes `0` and `2` (driver moves `0 → 1` and `2 → 3`), at resolution 1. -/
def c1State : Structure :=
  ((localPass (mkStructure 6 demoEdges) 1 [0, 2]).toOption.getD (mkStructure 6 demoEdges, false)).1

/-- The shared degree the driver would pass to `q` for node `3` and
community `4` in `c1State` (the cached `NodeCommunityWeights` entry). -/
def c1Shared : ℚ := (dictGet (c1State.node_communities_weights.getD 3 []) 4).getD 0

/-- Path graph `1-2-3-4-5-6` plus the isolated node `0`, used to exhibit the
order dependence of the driver. -/
def pathEdges : List (ℕ × ℕ) := [(1,2), (2,3), (3,4), (4,5), (5,6)]

/-- First shuffle outcome: pass 0 visits `[2,5,1,3,4,6,0]`, later passes in
ascending order.  Every value is a permutation of `range n`. -/
def shuffleA : ℕ → ℕ → List ℕ :=
  fun k n => if k = 0 ∧ n = 7 then [2, 5, 1, 3, 4, 6, 0] else List.range n

/-- Second shuffle outcome: pass 0 visits `[3,4,1,6,2,5,0]`. -/
def shuffleB : ℕ → ℕ → List ℕ :=
  fun k n => if k = 0 ∧ n = 7 then [3, 4, 1, 6, 2, 5, 0] else List.range n

/- Fidelity checks: the assertions of the source's test block hold for the
embedding. -/
example : (mkStructure 6 demoEdges).node_degrees.getD 0 0 = 2 := by decide
example : (mkStructure 6 demoEdges).node_degrees.getD 1 0 = 1 := by decide
example : (mkStructure 6 demoEdges).node_degrees.getD 3 0 = 3 := by decide
example : ((mkStructure 6 demoEdges).communities.getD 0 default).total_degree = 2 := by decide
example : ((mkStructure 6 demoEdges).communities.getD 3 default).total_degree = 3 := by decide
example : dictGet ((mkStructure 6 demoEdges).node_communities_weights.getD 0 []) 2 = some 1 := by
  decide

/-- C2: `merge_nodes` on the consistent post-aggregation state `pairMerged`
(whose node carries self-loop weight `2`) changes `m` from `2` to `0`: the
recomputation of `m` in `merge_nodes` sums only the accumulated edge
weights and drops the incoming `node_selfreference` values, so `m` is not
conserved once a level carries nonzero self-loops. -/
theorem merge_m_not_conserved :
    pairMerged.node_selfreference = [2] ∧ pairMerged.m = 2 ∧
    pairMergedTwice.m = 0 ∧ pairMergedTwice.m ≠ pairMerged.m := by
  refine ⟨by decide, by decide, by decide, by decide⟩

/-- C3: on the reference 6-node graph, node `1`'s best community is `0`,
which differs from its current community `1`, yet the driver's move
condition `if bestCommunity and ...` treats community id `0` as falsy and
performs no move. -/
theorem bestCommunity_zero_not_moved :
    updateBestCommunity (mkStructure 6 demoEdges) 1 1 = some 0 ∧
    commOf (mkStructure 6 demoEdges) 1 = 1 ∧
    visitNode (mkStructure 6 demoEdges) 1 1 = .ok (mkStructure 6 demoEdges, false) := by
  refine ⟨by decide, by decide, by decide⟩

/-- C6: after a second aggregation of the 2-node example the sum of the
cached community total degrees is `2` while `m` is `0`, so the invariant
`Σ community.totalDegree == m` fails in a state reachable by
`moveNodeTo; merge_nodes; merge_nodes` from a fresh structure. -/
theorem sumTotalDegree_ne_m_after_double_merge :
    sumTotalDegree pairMergedTwice = 2 ∧ pairMergedTwice.m = 0 ∧
    sumTotalDegree pairMergedTwice ≠ pairMergedTwice.m := by
  refine ⟨by decide, by decide, by decide⟩

/-- C5 (counterexample): the driver's regression guard does not fire when
the recorded modularity is exactly `0.0` even though the new modularity is
strictly smaller, because Python `if self.last_modularity and ...` treats
`0.0` as falsy. -/
theorem regression_guard_skips_zero :
    truthyLess (some 0) (-1) = false ∧ ((-1 : ℚ) < 0) ∧ truthyLess none (-1) = false := by
  refine ⟨by decide, by decide, by decide⟩

/-- C5 (amended): the guard fires exactly when a modularity has been
recorded, that record is nonzero (truthiness), and the new modularity is
strictly smaller. -/
theorem regression_guard_iff (last : Option ℚ) (modularity : ℚ) :
    truthyLess last modularity = true ↔
      ∃ l, last = some l ∧ l ≠ 0 ∧ modularity < l := by
  cases last with
  | none => simp [truthyLess]
  | some l => simp [truthyLess]

/-- C9 (counterexample): in the aggregated state of the reference scenario
the merged community `{0,1}` stores self-loop weight `2.0`, its incident
weight is `1.0`, and the cached degree is `3.0 = 1 + 2`, not
`1 + 2 * 2 = 5` as incident weight plus twice the stored self-loop weight
would give. -/
theorem degree_not_incident_plus_twice_selfloop :
    (merge_nodes (moveNodeTo (mkStructure 6 demoEdges) 1 0)).node_selfreference.getD 0 0 = 2 ∧
    incidentWeight (merge_nodes (moveNodeTo (mkStructure 6 demoEdges) 1 0)) 0 = 1 ∧
    (merge_nodes (moveNodeTo (mkStructure 6 demoEdges) 1 0)).node_degrees.getD 0 0 = 3 ∧
    (3 : ℚ) ≠ 1 + 2 * 2 := by
  refine ⟨by decide, by decide, by decide, by decide⟩

/-- C1 (counterexample): in the driver-reached state `c1State` the local
moving phase selects community `4` for node `3` (current community `3`,
best nonzero), executes the move, and the from-scratch modularity after the
move differs from `modularity_before + q(3, 4, shared, 1.0)` by `1/12`,
far beyond the tolerance `1e-9`: the predicted delta omits the "stay"
term of the non-singleton source community `{2,3}`. -/
theorem delta_claim_cex :
    (localPass (mkStructure 6 demoEdges) 1 [0, 2]).toOption.map
        (fun r => (r.1.node_community, r.2)) = some ([1, 1, 3, 3, 4, 5], true) ∧
    updateBestCommunity c1State 3 1 = some 4 ∧
    commOf c1State 3 = 3 ∧
    c1Shared = 1 ∧
    compute_modularity c1State 1 + q c1State 3 4 c1Shared 1
      - compute_modularity (moveNodeTo c1State 3 4) 1 = 1 / 12 ∧
    ((1 : ℚ) / 10 ^ 9 < 1 / 12) := by
  refine ⟨by decide, by decide, by decide, by decide, by decide, by decide⟩

/-- C4: the driver always shuffles with the ambient global generator — the
`randomize` parameter is never read (`random.shuffle(nodes)` runs
unconditionally) — so two runs with `randomize = false` on the same input
(7 nodes, fixed edge list, resolution 1) but different ambient shuffle
outcomes (both genuine permutations of the visiting range on every pass)
return different final partitions and different final modularity. -/
theorem louvain_randomize_false_not_deterministic :
    (∀ k n, (shuffleA k n).Perm (List.range n)) ∧
    (∀ k n, (shuffleB k n).Perm (List.range n)) ∧
    (louvain (mkStructure 7 pathEdges) 1 false shuffleA 20).toOption.map
        (fun s => s.origin_nodes_community) = some [0, 1, 1, 2, 2, 3, 3] ∧
    (louvain (mkStructure 7 pathEdges) 1 false shuffleB 20).toOption.map
        (fun s => s.origin_nodes_community) = some [0, 1, 1, 1, 2, 2, 2] ∧
    (louvain (mkStructure 7 pathEdges) 1 false shuffleA 20).toOption.map
        (fun s => compute_modularity s 1) = some (13 / 50) ∧
    (louvain (mkStructure 7 pathEdges) 1 false shuffleB 20).toOption.map
        (fun s => compute_modularity s 1) = some (3 / 10) ∧
    ([0, 1, 1, 2, 2, 3, 3] : List ℕ) ≠ [0, 1, 1, 1, 2, 2, 2] ∧
    (13 : ℚ) / 50 ≠ 3 / 10 := by
  refine ⟨?_, ?_, by decide, by decide, by decide, by decide, by decide, by decide⟩
  · intro k n
    by_cases h : k = 0 ∧ n = 7
    · rw [shuffleA, if_pos h, h.2]
      decide
    · rw [shuffleA, if_neg h]
  · intro k n
    by_cases h : k = 0 ∧ n = 7
    · rw [shuffleB, if_pos h, h.2]
      decide
    · rw [shuffleB, if_neg h]

theorem getD_of_all_eq {α : Type} {l : List α} {a : α} (h : ∀ x ∈ l, x = a) (i : ℕ) :
    l.getD i a = a := by
  induction l generalizing i with
  | nil => rfl
  | cons x t ih =>
    cases i with
    | zero => exact h x (List.mem_cons_self x t)
    | succ j => exact ih (fun y hy => h y (List.mem_cons_of_mem x hy)) j

theorem mkStructure_edges_empty {n : ℕ} {es : List (ℕ × ℕ)} (h : n = 0 ∨ es = []) (u : ℕ) :
    (mkStructure n es).edges.getD u [] = [] := by
  rcases h with h | h
  · subst h
    have hfold : ∀ (l : List (ℕ × ℕ)),
        l.foldl (fun L e => pushEdge (pushEdge L e.2 (e.1, 1)) e.1 (e.2, 1)) [] = [] := by
      intro l
      induction l with
      | nil => rfl
      | cons e t ih => simpa [pushEdge] using ih
    show (List.foldl _ (List.replicate 0 []) es).getD u [] = []
    rw [List.replicate, hfold es]
    rfl
  · subst h
    show ((List.replicate n []).getD u []) = []
    exact getD_of_all_eq (fun x hx => List.eq_of_mem_replicate hx) u

theorem mkStructure_ncw_empty {n : ℕ} {es : List (ℕ × ℕ)} (h : n = 0 ∨ es = []) (u : ℕ) :
    (mkStructure n es).node_communities_weights.getD u [] = [] := by
  refine getD_of_all_eq ?_ u
  intro x hx
  obtain ⟨i, _, rfl⟩ := List.mem_map.mp hx
  rw [node_communities_compute]
  have hedges := mkStructure_edges_empty h i
  change List.foldl _ [] ((mkStructure n es).edges.getD i []) = []
  rw [hedges]
  rfl

theorem updateBestCommunity_of_ncw_empty {s : Structure} {v : ℕ} (resolution : ℚ)
    (h : s.node_communities_weights.getD v [] = []) :
    updateBestCommunity s v resolution = none := by
  rw [updateBestCommunity, h]
  rfl

theorem visitNode_of_ncw_empty {s : Structure} {v : ℕ} (resolution : ℚ)
    (h : s.node_communities_weights.getD v [] = []) :
    visitNode s resolution v = .ok (s, false) := by
  rw [visitNode, updateBestCommunity_of_ncw_empty resolution h]

theorem localPass_of_no_moves {s : Structure} (resolution : ℚ)
    (h : ∀ v, visitNode s resolution v = .ok (s, false)) (order : List ℕ) :
    localPass s resolution order = .ok (s, false) := by
  rw [localPass]
  have key : ∀ (l : List ℕ) (b : Bool), localPassAux resolution l s b = .ok (s, b) := by
    intro l
    induction l with
    | nil => intro b; rfl
    | cons x t ih =>
      intro b
      rw [localPassAux, h x]
      simpa using ih b
  exact key _ false

theorem innerLoop_of_no_moves {s : Structure} (resolution : ℚ) (shuffle : ℕ → ℕ → List ℕ)
    (h : ∀ order, localPass s resolution order = .ok (s, false)) (fuel k : ℕ) :
    innerLoop resolution shuffle (fuel + 1) k s = .ok (s, false, k + 1) := by
  rw [innerLoop]
  rw [h]
  rfl

/-- C8: on a degenerate input (`nodeCount = 0`, or any node count with an
empty edge list) the full driver returns without error and leaves the
trivial partition — every node its own community (`origin_nodes_community`
is `0, 1, ..., n-1`) — whose modularity is `0`, for every resolution,
`randomize` flag, shuffle outcome, and positive fuel bound. -/
theorem louvain_degenerate_trivial (n : ℕ) (es : List (ℕ × ℕ)) (resolution : ℚ)
    (randomize : Bool) (shuffle : ℕ → ℕ → List ℕ) (fuel : ℕ)
    (hfuel : 1 ≤ fuel) (h : n = 0 ∨ es = []) :
    louvain (mkStructure n es) resolution randomize shuffle fuel = .ok (mkStructure n es) ∧
    (mkStructure n es).origin_nodes_community = List.range n ∧
    compute_modularity (mkStructure n es) resolution = 0 := by
  have hvisit : ∀ v, visitNode (mkStructure n es) resolution v = .ok (mkStructure n es, false) :=
    fun v => visitNode_of_ncw_empty resolution (mkStructure_ncw_empty h v)
  have hpass : ∀ order, localPass (mkStructure n es) resolution order =
      .ok (mkStructure n es, false) :=
    localPass_of_no_moves resolution hvisit
  obtain ⟨f, rfl⟩ : ∃ f, fuel = f + 1 := by
    cases fuel with
    | zero => omega
    | succ f => exact ⟨f, rfl⟩
  refine ⟨?_, rfl, ?_⟩
  · rw [louvain, louvainOuter, innerLoop_of_no_moves resolution shuffle hpass f 0]
    rfl
  · rcases h with h | h
    · subst h
      rw [compute_modularity]
      show (if _ = 0 then (0:ℚ) else ((List.range 0).dedup.map _).sum) = 0
      split
      · rfl
      · rfl
    · subst h
      rw [compute_modularity]
      have : (mkStructure n []).m * (1/2) = 0 := by
        show ((List.length (α := ℕ × ℕ) [] : ℚ) * 2) * (1/2) = 0
        norm_num
      rw [if_pos this]

theorem getD_set_ne {α : Type} {l : List α} {i j : ℕ} (h : i ≠ j) (a d : α) :
    (l.set i a).getD j d = l.getD j d := by
  simp [List.getD_eq_getElem?_getD, List.getElem?_set_ne h]

theorem getD_set_self {α : Type} {l : List α} {i : ℕ} (h : i < l.length) (a d : α) :
    (l.set i a).getD i d = a := by
  simp [List.getD_eq_getElem?_getD, List.getElem?_set_self h]

theorem listModify_length {α : Type} (l : List α) (i : ℕ) (f : α → α) :
    (listModify l i f).length = l.length := by
  induction l generalizing i with
  | nil => rfl
  | cons x t ih =>
    cases i with
    | zero => rfl
    | succ j => simpa [listModify] using ih j

theorem listModify_getD_ne {α : Type} (l : List α) (i j : ℕ) (h : i ≠ j) (f : α → α) (d : α) :
    (listModify l i f).getD j d = l.getD j d := by
  induction l generalizing i j with
  | nil => rfl
  | cons x t ih =>
    cases i with
    | zero =>
      cases j with
      | zero => exact absurd rfl h
      | succ j0 => rfl
    | succ i0 =>
      cases j with
      | zero => rfl
      | succ j0 =>
        show (listModify t i0 f).getD j0 d = t.getD j0 d
        exact ih i0 j0 (fun hc => h (by omega))

theorem listModify_getD_self {α : Type} {l : List α} {i : ℕ} (h : i < l.length)
    (f : α → α) (d : α) :
    (listModify l i f).getD i d = f (l.getD i d) := by
  induction l generalizing i with
  | nil => simp at h
  | cons x t ih =>
    cases i with
    | zero => rfl
    | succ i0 => exact ih (by simpa using h)

theorem dictGet_dictSet (d : WDict) (k : ℕ) (v : ℚ) (k0 : ℕ) :
    dictGet (dictSet d k v) k0 = if k = k0 then some v else dictGet d k0 := by
  induction d with
  | nil =>
    by_cases h : k = k0 <;> simp [dictSet, dictGet, h]
  | cons p t ih =>
    obtain ⟨a, b⟩ := p
    by_cases hak : a = k
    · subst hak
      by_cases hk0 : a = k0 <;> simp [dictSet, dictGet, hk0]
    · by_cases hk0 : a = k0
      · subst hk0
        have hkk0 : ¬ k = a := fun hc => hak hc.symm
        simp [dictSet, dictGet, hak, hkk0]
      · simp [dictSet, dictGet, hak, hk0, ih]

theorem dictGet_dictDel (d : WDict) (k k0 : ℕ) :
    dictGet (dictDel d k) k0 = if k = k0 then none else dictGet d k0 := by
  induction d with
  | nil => by_cases h : k = k0 <;> simp [dictDel, dictGet, h]
  | cons p t ih =>
    obtain ⟨a, b⟩ := p
    by_cases hak : a = k
    · subst hak
      by_cases hk0 : a = k0
      · subst hk0
        simpa [dictDel, dictGet] using ih
      · have : ¬ a = k0 := hk0
        simp only [dictDel, List.filter] at ih ⊢
        simp only [show (decide (a ≠ a)) = false by simp]
        simpa [dictGet, hk0] using ih
    · by_cases hk0 : a = k0
      · subst hk0
        have hkk0 : ¬ k = a := fun hc => hak hc.symm
        simp only [dictDel, List.filter] at ih ⊢
        simp [dictGet, hak, hkk0, show (decide (a ≠ k)) = true by simpa using hak]
      · simp only [dictDel, List.filter] at ih ⊢
        by_cases hkk0 : k = k0
        · subst hkk0
          simp [dictGet, hak, hk0, show (decide (a ≠ k)) = true by simpa using hak,
            if_pos rfl] at ih ⊢
          exact ih
        · simp [dictGet, hak, hk0, hkk0, show (decide (a ≠ k)) = true by simpa using hak] at ih ⊢
          exact ih

theorem dictGet_ncwMoveUpd_other {d : WDict} {old c : ℕ} (w : ℚ) {k : ℕ}
    (h1 : k ≠ old) (h2 : k ≠ c) :
    dictGet (ncwMoveUpd d old c w) k = dictGet d k := by
  rw [ncwMoveUpd]
  have hoc : ∀ d1 : WDict, dictGet d1 k = dictGet d k →
      dictGet (match dictGet d1 c with
        | some y => dictSet d1 c (y + w)
        | none => dictSet d1 c w) k = dictGet d k := by
    intro d1 hd1
    cases hgc : dictGet d1 c with
    | some y => rw [dictGet_dictSet, if_neg (fun hc => h2 hc.symm), hd1]
    | none => rw [dictGet_dictSet, if_neg (fun hc => h2 hc.symm), hd1]
  cases hgo : dictGet d old with
  | some x =>
    by_cases hle : x - w ≤ 0
    · simp only [hle, if_pos]
      exact hoc _ (by rw [dictGet_dictDel, if_neg (fun hc => h1 hc.symm)])
    · simp only [hle, if_neg, ite_false]
      exact hoc _ (by rw [dictGet_dictSet, if_neg (fun hc => h1 hc.symm)])
  | none => exact hoc _ rfl

theorem foldSet_getD_untouched {β : Type} (es : List (ℕ × β))
    (G : List WDict → ℕ × β → WDict) (L : List WDict) (u : ℕ)
    (h : ∀ p ∈ es, p.1 ≠ u) :
    (es.foldl (fun L2 p => L2.set p.1 (G L2 p)) L).getD u [] = L.getD u [] := by
  induction es generalizing L with
  | nil => rfl
  | cons p t ih =>
    rw [List.foldl_cons]
    rw [ih _ (fun x hx => h x (List.mem_cons_of_mem p hx))]
    exact getD_set_ne (h p (List.mem_cons_self p t)) _ _

theorem foldNcw_dictGet_other (es : List (ℕ × ℚ)) (old c : ℕ) (L : List WDict) (u k : ℕ)
    (h1 : k ≠ old) (h2 : k ≠ c) :
    dictGet ((es.foldl (fun L2 p => L2.set p.1 (ncwMoveUpd (L2.getD p.1 []) old c p.2)) L).getD u [])
      k = dictGet (L.getD u []) k := by
  induction es generalizing L with
  | nil => rfl
  | cons p t ih =>
    rw [List.foldl_cons, ih]
    by_cases hu : p.1 = u
    · subst hu
      by_cases hlen : p.1 < L.length
      · rw [getD_set_self hlen, dictGet_ncwMoveUpd_other _ h1 h2]
      · rw [List.set_eq_of_length_le (by omega)]
    · rw [getD_set_ne hu]

/-- C10: `moveNodeTo(v, c)` has the frame stated in the claim — it leaves
`node_degrees`, `m`, `edges`, `orig_edges`, `node_selfreference`,
`origin_nodes_community` (and `last_modularity`) untouched; it changes
`node_community` only at `v`; it changes the `communities` list only at
`v`'s old community and at `c`; and it changes `NodeCommunityWeights` only
at indices that are neighbours of `v` and, for those, only the entries of
the two communities involved. -/
theorem moveNodeTo_frame (s : Structure) (v c : ℕ) :
    (moveNodeTo s v c).node_degrees = s.node_degrees ∧
    (moveNodeTo s v c).m = s.m ∧
    (moveNodeTo s v c).edges = s.edges ∧
    (moveNodeTo s v c).orig_edges = s.orig_edges ∧
    (moveNodeTo s v c).node_selfreference = s.node_selfreference ∧
    (moveNodeTo s v c).origin_nodes_community = s.origin_nodes_community ∧
    (moveNodeTo s v c).last_modularity = s.last_modularity ∧
    (∀ u, u ≠ v → (moveNodeTo s v c).node_community.getD u 0 = s.node_community.getD u 0) ∧
    (∀ d2, d2 ≠ commOf s v → d2 ≠ c →
      (moveNodeTo s v c).communities.getD d2 default = s.communities.getD d2 default) ∧
    (∀ u, (∀ p ∈ s.edges.getD v [], p.1 ≠ u) →
      (moveNodeTo s v c).node_communities_weights.getD u [] =
        s.node_communities_weights.getD u []) ∧
    (∀ u k, k ≠ commOf s v → k ≠ c →
      dictGet ((moveNodeTo s v c).node_communities_weights.getD u []) k =
        dictGet (s.node_communities_weights.getD u []) k) := by
  refine ⟨rfl, rfl, rfl, rfl, rfl, rfl, rfl, ?_, ?_, ?_, ?_⟩
  · intro u hu
    exact getD_set_ne (fun hc => hu hc.symm) _ _
  · intro d2 h1 h2
    show (listModify (listModify s.communities (commOf s v) _) c _).getD d2 default =
      s.communities.getD d2 default
    rw [listModify_getD_ne _ c d2 (fun hc => h2 hc.symm),
      listModify_getD_ne _ (commOf s v) d2 (fun hc => h1 hc.symm)]
  · intro u hu
    exact foldSet_getD_untouched _ _ _ u hu
  · intro u k h1 h2
    exact foldNcw_dictGet_other _ _ _ _ u k h1 h2

/-- Witness for C10 at a concrete input: moving node `1` into community `0`
on the reference graph leaves the listed fields unchanged, the community
entry `2` unchanged, node `4`'s weight dictionary unchanged (node `4` is
not a neighbour of `1`), and node `0`'s entry for community `2`
unchanged. -/
theorem moveNodeTo_frame_witness :
    (moveNodeTo (mkStructure 6 demoEdges) 1 0).node_degrees =
      (mkStructure 6 demoEdges).node_degrees ∧
    (moveNodeTo (mkStructure 6 demoEdges) 1 0).communities.getD 2 default =
      (mkStructure 6 demoEdges).communities.getD 2 default ∧
    (moveNodeTo (mkStructure 6 demoEdges) 1 0).node_communities_weights.getD 4 [] =
      (mkStructure 6 demoEdges).node_communities_weights.getD 4 [] ∧
    dictGet ((moveNodeTo (mkStructure 6 demoEdges) 1 0).node_communities_weights.getD 0 []) 2 =
      dictGet ((mkStructure 6 demoEdges).node_communities_weights.getD 0 []) 2 := by
  obtain ⟨h1, -, -, -, -, -, -, -, hc, hn, hk⟩ := moveNodeTo_frame (mkStructure 6 demoEdges) 1 0
  exact ⟨h1, hc 2 (by decide) (by decide), hn 4 (by decide), hk 0 2 (by decide) (by decide)⟩

theorem listRangeSum (n : ℕ) (f : ℕ → ℚ) :
    ((List.range n).map f).sum = ∑ u ∈ Finset.range n, f u := by
  induction n with
  | zero => rfl
  | succ k ih =>
    rw [List.range_succ, List.map_append, List.sum_append, Finset.sum_range_succ, ih]
    simp

theorem listFilterSum (l : List ℕ) (P : ℕ → Bool) (f : ℕ → ℚ) :
    ((l.filter P).map f).sum = (l.map (fun u => if P u then f u else 0)).sum := by
  induction l with
  | nil => rfl
  | cons x t ih => by_cases h : P x <;> simp [List.filter_cons, h, ih]

theorem nodesListSum (l : List ℕ) (hnd : l.Nodup) (n : ℕ) (P : ℕ → Prop) [DecidablePred P]
    (hmem : ∀ u, u ∈ l ↔ (u < n ∧ P u)) (f : ℕ → ℚ) :
    (l.map f).sum = ∑ u ∈ Finset.range n, if P u then f u else 0 := by
  rw [← List.sum_toFinset f hnd]
  have hset : l.toFinset = (Finset.range n).filter P := by
    ext u
    simp only [List.mem_toFinset, Finset.mem_filter, Finset.mem_range]
    exact hmem u
  rw [hset, Finset.sum_filter]

theorem sum_range_update (n : ℕ) (f g : ℕ → ℚ) (v : ℕ) (hv : v < n)
    (h : ∀ u, u < n → u ≠ v → f u = g u) :
    (∑ u ∈ Finset.range n, f u) = (∑ u ∈ Finset.range n, g u) + (f v - g v) := by
  have hdiff : (∑ u ∈ Finset.range n, (f u - g u)) = f v - g v := by
    refine Finset.sum_eq_single v ?_ ?_
    · intro b hb hbv
      rw [h b (Finset.mem_range.mp hb) hbv]
      ring
    · intro hvn
      exact absurd (Finset.mem_range.mpr hv) hvn
  calc (∑ u ∈ Finset.range n, f u)
      = ∑ u ∈ Finset.range n, (g u + (f u - g u)) := by
        refine Finset.sum_congr rfl ?_
        intros
        ring
    _ = (∑ u ∈ Finset.range n, g u) + (f v - g v) := by rw [Finset.sum_add_distrib, hdiff]

theorem sum_filter_pairs_group (l : List (ℕ × ℚ)) (n : ℕ) (hl : ∀ p ∈ l, p.1 < n)
    (P : ℕ → Bool) :
    ((l.filter (fun p => P p.1)).map (fun p => p.2)).sum
      = ∑ u ∈ Finset.range n,
          if P u then ((l.filter (fun p => p.1 = u)).map (fun p => p.2)).sum else 0 := by
  induction l with
  | nil =>
    have h0 : ((([] : List (ℕ × ℚ)).filter (fun p => P p.1)).map (fun p => p.2)).sum = 0 := by
      simp
    rw [h0]
    refine (Finset.sum_eq_zero ?_).symm
    intro u _
    by_cases h : P u <;> simp [h]
  | cons p t ih =>
    have hp := hl p (List.mem_cons_self p t)
    have iht := ih (fun x hx => hl x (List.mem_cons_of_mem p hx))
    have hsplit : ∀ u : ℕ, (((p :: t).filter (fun q => q.1 = u)).map (fun q => q.2)).sum
        = (if p.1 = u then p.2 else 0)
          + ((t.filter (fun q => q.1 = u)).map (fun q => q.2)).sum := by
      intro u
      by_cases h : p.1 = u <;> simp [List.filter_cons, h]
    have hrhs : (∑ u ∈ Finset.range n,
          if P u then (((p :: t).filter (fun q => q.1 = u)).map (fun q => q.2)).sum else 0)
        = (∑ u ∈ Finset.range n, if P u then (if p.1 = u then p.2 else 0) else 0)
          + (∑ u ∈ Finset.range n,
              if P u then ((t.filter (fun q => q.1 = u)).map (fun q => q.2)).sum else 0) := by
      rw [← Finset.sum_add_distrib]
      refine Finset.sum_congr rfl ?_
      intro u _
      rw [hsplit u]
      by_cases h : P u <;> simp [h]
    have hfirst : (∑ u ∈ Finset.range n, if P u then (if p.1 = u then p.2 else 0) else 0)
        = if P p.1 then p.2 else 0 := by
      have h2 : (∑ u ∈ Finset.range n, if P u then (if p.1 = u then p.2 else 0) else 0)
          = if P p.1 then (if p.1 = p.1 then p.2 else 0) else 0 := by
        refine Finset.sum_eq_single p.1 ?_ ?_
        · intro b _ hb
          have hne2 : ¬ (p.1 = b) := fun hc => hb hc.symm
          by_cases hPb : P b <;> simp [hPb, hne2]
        · intro hnm
          exact absurd (Finset.mem_range.mpr hp) hnm
      rw [h2]
      simp
    rw [hrhs, hfirst, ← iht]
    by_cases h : P p.1 <;> simp [List.filter_cons, h]

theorem sum_filter_split (l : List (ℕ × ℚ)) (P Q : (ℕ × ℚ) → Bool) :
    ((l.filter P).map (fun p => p.2)).sum
      = ((l.filter (fun p => P p && Q p)).map (fun p => p.2)).sum
        + ((l.filter (fun p => P p && !(Q p))).map (fun p => p.2)).sum := by
  induction l with
  | nil => simp
  | cons x t ih =>
    by_cases hP : P x <;> by_cases hQ : Q x <;>
      simp [List.filter_cons, hP, hQ, ih] <;> ring

theorem filtered_sum_nonneg (l : List (ℕ × ℚ)) (P : (ℕ × ℚ) → Bool)
    (h : ∀ p ∈ l, 0 < p.2) :
    0 ≤ ((l.filter P).map (fun p => p.2)).sum := by
  refine List.sum_nonneg ?_
  intro x hx
  obtain ⟨p, hpmem, rfl⟩ := List.mem_map.mp hx
  exact le_of_lt (h p (List.mem_of_mem_filter hpmem))

theorem filtered_sum_pos_iff (l : List (ℕ × ℚ)) (P : (ℕ × ℚ) → Bool)
    (h : ∀ p ∈ l, 0 < p.2) :
    0 < ((l.filter P).map (fun p => p.2)).sum ↔ l.filter P ≠ [] := by
  constructor
  · intro hpos hnil
    rw [hnil] at hpos
    exact absurd hpos (by norm_num)
  · intro hne
    cases hf : l.filter P with
    | nil => exact absurd hf hne
    | cons a t =>
      have ha : 0 < a.2 := h a (List.mem_of_mem_filter (hf ▸ List.mem_cons_self a t))
      have ht : 0 ≤ (t.map (fun p => p.2)).sum := by
        refine List.sum_nonneg ?_
        intro x hx
        obtain ⟨p, hpmem, rfl⟩ := List.mem_map.mp hx
        have : p ∈ l.filter P := hf ▸ List.mem_cons_of_mem a hpmem
        exact le_of_lt (h p (List.mem_of_mem_filter this))
      simpa using add_pos_of_pos_of_nonneg ha ht

theorem dictGet_dictAdd (d : WDict) (k0 : ℕ) (w : ℚ) (k : ℕ) :
    dictGet (dictAdd d k0 w) k
      = if k0 = k then some ((dictGet d k0).getD 0 + w) else dictGet d k := by
  rw [dictAdd]
  cases h : dictGet d k0 with
  | some v => rw [dictGet_dictSet]; by_cases hk : k0 = k <;> simp [hk, h]
  | none => rw [dictGet_dictSet]; by_cases hk : k0 = k <;> simp [hk, h]

theorem dictGet_foldl_dictAdd (l : List (ℕ × ℚ)) (d0 : WDict) (k : ℕ) :
    dictGet (l.foldl (fun d e => dictAdd d e.1 e.2) d0) k
      = if l.filter (fun e => e.1 = k) = [] then dictGet d0 k
        else some ((dictGet d0 k).getD 0
          + ((l.filter (fun e => e.1 = k)).map (fun e => e.2)).sum) := by
  induction l generalizing d0 with
  | nil => simp
  | cons e t ih =>
    rw [List.foldl_cons, ih]
    by_cases he : e.1 = k
    · have hfe : List.filter (fun e2 => decide (e2.1 = k)) (e :: t)
          = e :: List.filter (fun e2 => decide (e2.1 = k)) t := by
        simp [List.filter_cons, he]
      have hget : dictGet (dictAdd d0 e.1 e.2) k = some ((dictGet d0 k).getD 0 + e.2) := by
        rw [dictGet_dictAdd, if_pos he, he]
      rw [hfe]
      by_cases ht : List.filter (fun e2 => decide (e2.1 = k)) t = []
      · rw [if_pos ht, hget, if_neg (List.cons_ne_nil _ _), ht]
        simp
      · rw [if_neg ht, if_neg (List.cons_ne_nil _ _), hget]
        simp only [List.map_cons, List.sum_cons, Option.getD_some]
        rw [add_assoc]
    · have hfe : List.filter (fun e2 => decide (e2.1 = k)) (e :: t)
          = List.filter (fun e2 => decide (e2.1 = k)) t := by
        simp [List.filter_cons, he]
      have hget : dictGet (dictAdd d0 e.1 e.2) k = dictGet d0 k := by
        rw [dictGet_dictAdd, if_neg he]
      rw [hfe, hget]

theorem foldNcw_getD (es : List (ℕ × ℚ)) (old c : ℕ) (L : List WDict) (u : ℕ)
    (hu : u < L.length) :
    (es.foldl (fun L2 p => L2.set p.1 (ncwMoveUpd (L2.getD p.1 []) old c p.2)) L).getD u []
      = (es.filter (fun p => p.1 = u)).foldl (fun d p => ncwMoveUpd d old c p.2)
          (L.getD u []) := by
  induction es generalizing L with
  | nil => rfl
  | cons p t ih =>
    rw [List.foldl_cons]
    by_cases hp : p.1 = u
    · rw [ih _ (by simpa using hu)]
      have hfe : List.filter (fun p2 => decide (p2.1 = u)) (p :: t)
          = p :: List.filter (fun p2 => decide (p2.1 = u)) t := by
        simp [List.filter_cons, hp]
      rw [hfe, List.foldl_cons]
      have : (L.set p.1 (ncwMoveUpd (L.getD p.1 []) old c p.2)).getD u []
          = ncwMoveUpd (L.getD u []) old c p.2 := by
        rw [hp] at *
        exact getD_set_self hu _ _
      rw [this]
    · rw [ih _ (by simpa using hu), getD_set_ne hp]
      have hfe : List.filter (fun p2 => decide (p2.1 = u)) (p :: t)
          = List.filter (fun p2 => decide (p2.1 = u)) t := by
        simp [List.filter_cons, hp]
      rw [hfe]

theorem ncwMoveUpd_lookup (d : WDict) (old c : ℕ) (hoc : old ≠ c) (w x : ℚ)
    (hx : dictGet d old = some x) :
    dictGet (ncwMoveUpd d old c w) old = (if x - w ≤ 0 then none else some (x - w)) ∧
    dictGet (ncwMoveUpd d old c w) c = some ((dictGet d c).getD 0 + w) := by
  have hco : ¬ (c = old) := fun hcc => hoc hcc.symm
  simp only [ncwMoveUpd, hx]
  by_cases hle : x - w ≤ 0
  · rw [if_pos hle]
    have hc1 : dictGet (dictDel d old) c = dictGet d c := by
      rw [dictGet_dictDel, if_neg hoc]
    rw [hc1]
    cases hv : dictGet d c with
    | some y =>
      refine ⟨?_, ?_⟩
      · rw [dictGet_dictSet, if_neg hco, dictGet_dictDel, if_pos rfl, if_pos hle]
      · rw [dictGet_dictSet, if_pos rfl]
        simp
    | none =>
      refine ⟨?_, ?_⟩
      · rw [dictGet_dictSet, if_neg hco, dictGet_dictDel, if_pos rfl, if_pos hle]
      · rw [dictGet_dictSet, if_pos rfl]
        simp
  · rw [if_neg hle]
    have hc1 : dictGet (dictSet d old (x - w)) c = dictGet d c := by
      rw [dictGet_dictSet, if_neg hoc]
    rw [hc1]
    cases hv : dictGet d c with
    | some y =>
      refine ⟨?_, ?_⟩
      · rw [dictGet_dictSet, if_neg hco, dictGet_dictSet, if_pos rfl, if_neg hle]
      · rw [dictGet_dictSet, if_pos rfl]
        simp
    | none =>
      refine ⟨?_, ?_⟩
      · rw [dictGet_dictSet, if_neg hco, dictGet_dictSet, if_pos rfl, if_neg hle]
      · rw [dictGet_dictSet, if_pos rfl]
        simp

theorem ncwMoveUpd_fold_lookup (old c : ℕ) (hoc : old ≠ c) (es : List (ℕ × ℚ)) :
    ∀ (d : WDict) (rest sb : ℚ), (∀ p ∈ es, 0 < p.2) → 0 ≤ rest → 0 ≤ sb →
    dictGet d old = (if 0 < rest + (es.map (fun p => p.2)).sum
        then some (rest + (es.map (fun p => p.2)).sum) else none) →
    dictGet d c = (if 0 < sb then some sb else none) →
    (dictGet (es.foldl (fun d2 p => ncwMoveUpd d2 old c p.2) d) old
        = (if 0 < rest then some rest else none)) ∧
    (dictGet (es.foldl (fun d2 p => ncwMoveUpd d2 old c p.2) d) c
        = (if 0 < sb + (es.map (fun p => p.2)).sum
            then some (sb + (es.map (fun p => p.2)).sum) else none)) ∧
    (∀ k, k ≠ old → k ≠ c →
      dictGet (es.foldl (fun d2 p => ncwMoveUpd d2 old c p.2) d) k = dictGet d k) := by
  induction es with
  | nil =>
    intro d rest sb hw hrest hsb hold hb
    refine ⟨?_, ?_, fun k _ _ => rfl⟩
    · simpa using hold
    · simpa using hb
  | cons p t ih =>
    intro d rest sb hw hrest hsb hold hb
    have hp2 : 0 < p.2 := hw p (List.mem_cons_self p t)
    have htsum : 0 ≤ (t.map (fun p2 => p2.2)).sum := by
      refine List.sum_nonneg ?_
      intro x hx
      obtain ⟨p2, hp2mem, rfl⟩ := List.mem_map.mp hx
      exact le_of_lt (hw p2 (List.mem_cons_of_mem p hp2mem))
    have hXpos : 0 < rest + ((p :: t).map (fun p2 => p2.2)).sum := by
      rw [List.map_cons, List.sum_cons]
      have : 0 < p.2 + (t.map (fun p2 => p2.2)).sum := add_pos_of_pos_of_nonneg hp2 htsum
      linarith
    have hX : dictGet d old = some (rest + (p.2 + (t.map (fun p2 => p2.2)).sum)) := by
      rw [hold, if_pos hXpos, List.map_cons, List.sum_cons]
    obtain ⟨h2old, h2c⟩ := ncwMoveUpd_lookup d old c hoc p.2 _ hX
    have hXsub : rest + (p.2 + (t.map (fun p2 => p2.2)).sum) - p.2
        = rest + (t.map (fun p2 => p2.2)).sum := by ring
    have h2old2 : dictGet (ncwMoveUpd d old c p.2) old
        = (if 0 < rest + (t.map (fun p2 => p2.2)).sum
            then some (rest + (t.map (fun p2 => p2.2)).sum) else none) := by
      rw [h2old, hXsub]
      by_cases hpos : 0 < rest + (t.map (fun p2 => p2.2)).sum
      · rw [if_neg (by linarith), if_pos hpos]
      · have h0 : 0 ≤ rest + (t.map (fun p2 => p2.2)).sum := add_nonneg hrest htsum
        have hzero : rest + (t.map (fun p2 => p2.2)).sum = 0 :=
          le_antisymm (not_lt.mp hpos) h0
        rw [if_pos (by linarith), if_neg hpos]
    have h2c2 : dictGet (ncwMoveUpd d old c p.2) c
        = (if 0 < sb + p.2 then some (sb + p.2) else none) := by
      rw [h2c, hb]
      have hpos2 : 0 < sb + p.2 := by linarith
      rw [if_pos hpos2]
      by_cases hsbpos : 0 < sb
      · rw [if_pos hsbpos]
        simp
      · have hz : sb = 0 := le_antisymm (not_lt.mp hsbpos) hsb
        rw [if_neg hsbpos, hz]
        simp
    rw [List.foldl_cons]
    obtain ⟨c1, c2, c3⟩ := ih (ncwMoveUpd d old c p.2) rest (sb + p.2)
      (fun p2 hp2m => hw p2 (List.mem_cons_of_mem p hp2m))
      hrest (by linarith) h2old2 h2c2
    refine ⟨c1, ?_, ?_⟩
    · rw [c2, List.map_cons, List.sum_cons]
      have hassoc : sb + p.2 + (t.map (fun p2 => p2.2)).sum
          = sb + (p.2 + (t.map (fun p2 => p2.2)).sum) := by ring
      rw [hassoc]
    · intro k hk1 hk2
      rw [c3 k hk1 hk2, dictGet_ncwMoveUpd_other _ hk1 hk2]

theorem getD_map_lt {α β : Type} (l : List α) (f : α → β) (i : ℕ) (h : i < l.length)
    (d : β) (d2 : α) :
    (l.map f).getD i d = f (l.getD i d2) := by
  induction l generalizing i with
  | nil => simp at h
  | cons x t ih =>
    cases i with
    | zero => rfl
    | succ j => exact ih j (by simpa using h)

theorem getD_range_lt {n i : ℕ} (h : i < n) : (List.range n).getD i 0 = i := by
  rw [List.getD_eq_getElem?_getD, List.getElem?_range h]
  rfl

theorem keys_dictSet_subset {d : WDict} {k0 : ℕ} {v : ℚ} :
    ∀ p ∈ dictSet d k0 v, p.1 = k0 ∨ p.1 ∈ d.map Prod.fst := by
  induction d with
  | nil =>
    intro p hp
    rw [dictSet] at hp
    have hpe := List.mem_singleton.mp hp
    subst hpe
    exact Or.inl rfl
  | cons x t ih =>
    intro p hp
    rw [dictSet] at hp
    by_cases hx : x.1 = k0
    · rw [if_pos hx] at hp
      rcases List.mem_cons.mp hp with rfl | hpt
      · exact Or.inl hx
      · exact Or.inr (List.mem_map.mpr ⟨p, List.mem_cons_of_mem x hpt, rfl⟩)
    · rw [if_neg hx] at hp
      rcases List.mem_cons.mp hp with rfl | hpt
      · exact Or.inr (List.mem_map.mpr ⟨x, List.mem_cons_self x t, rfl⟩)
      · rcases ih p hpt with h | h
        · exact Or.inl h
        · obtain ⟨p2, hp2, hfst⟩ := List.mem_map.mp h
          exact Or.inr (List.mem_map.mpr ⟨p2, List.mem_cons_of_mem x hp2, hfst⟩)

theorem keys_dictAdd_subset {d : WDict} {k0 : ℕ} {w : ℚ} :
    ∀ p ∈ dictAdd d k0 w, p.1 = k0 ∨ p.1 ∈ d.map Prod.fst := by
  intro p hp
  rw [dictAdd] at hp
  cases hv : dictGet d k0 with
  | some v =>
    rw [hv] at hp
    exact keys_dictSet_subset p hp
  | none =>
    rw [hv] at hp
    exact keys_dictSet_subset p hp

theorem keys_nodup_dictSet {d : WDict} {k0 : ℕ} {v : ℚ} (h : (d.map Prod.fst).Nodup) :
    ((dictSet d k0 v).map Prod.fst).Nodup := by
  induction d with
  | nil => simp [dictSet]
  | cons x t ih =>
    rw [List.map_cons] at h
    obtain ⟨hx, ht⟩ := List.nodup_cons.mp h
    rw [dictSet]
    by_cases hxk : x.1 = k0
    · rw [if_pos hxk, List.map_cons]
      exact List.nodup_cons.mpr ⟨hx, ht⟩
    · rw [if_neg hxk, List.map_cons]
      refine List.nodup_cons.mpr ⟨?_, ih ht⟩
      intro hmem
      obtain ⟨p, hp, hfst⟩ := List.mem_map.mp hmem
      rcases keys_dictSet_subset p hp with h1 | h1
      · exact hxk (by rw [← hfst, h1])
      · exact hx (hfst ▸ h1)

theorem keys_nodup_dictAdd {d : WDict} {k0 : ℕ} {w : ℚ} (h : (d.map Prod.fst).Nodup) :
    ((dictAdd d k0 w).map Prod.fst).Nodup := by
  rw [dictAdd]
  cases hv : dictGet d k0 with
  | some v => exact keys_nodup_dictSet h
  | none => exact keys_nodup_dictSet h

theorem keys_foldl_dictAdd (l : List (ℕ × ℚ)) :
    ∀ (d0 : WDict), ∀ p ∈ l.foldl (fun d e => dictAdd d e.1 e.2) d0,
      p.1 ∈ d0.map Prod.fst ∨ p.1 ∈ l.map Prod.fst := by
  induction l with
  | nil => intro d0 p hp; exact Or.inl (List.mem_map.mpr ⟨p, hp, rfl⟩)
  | cons e t ih =>
    intro d0 p hp
    rw [List.foldl_cons] at hp
    rcases ih (dictAdd d0 e.1 e.2) p hp with h | h
    · obtain ⟨p2, hp2, hfst⟩ := List.mem_map.mp h
      rcases keys_dictAdd_subset p2 hp2 with h1 | h1
      · exact Or.inr (List.mem_map.mpr ⟨e, List.mem_cons_self e t, by rw [← hfst, h1]⟩)
      · obtain ⟨p3, hp3, hfst3⟩ := List.mem_map.mp h1
        exact Or.inl (List.mem_map.mpr ⟨p3, hp3, by rw [hfst3, hfst]⟩)
    · exact Or.inr (by rw [List.map_cons]; exact List.mem_cons_of_mem _ h)

theorem keys_nodup_foldl_dictAdd (l : List (ℕ × ℚ)) :
    ∀ (d0 : WDict), (d0.map Prod.fst).Nodup →
      ((l.foldl (fun d e => dictAdd d e.1 e.2) d0).map Prod.fst).Nodup := by
  induction l with
  | nil => intro d0 h; exact h
  | cons e t ih => intro d0 h; exact ih _ (keys_nodup_dictAdd h)

theorem mem_of_dictGet {d : WDict} {k : ℕ} {w : ℚ} (h : dictGet d k = some w) : (k, w) ∈ d := by
  induction d with
  | nil => exact absurd h (by simp [dictGet])
  | cons x t ih =>
    rw [dictGet] at h
    by_cases hx : x.1 = k
    · rw [show x = (x.1, x.2) from rfl, if_pos hx] at h
      obtain rfl := Option.some_injective _ h
      rw [← hx]
      exact List.mem_cons_self x t
    · rw [show x = (x.1, x.2) from rfl, if_neg hx] at h
      exact List.mem_cons_of_mem x (ih h)

theorem dictGet_eq_none_of_not_mem {d : WDict} {k : ℕ} (h : k ∉ d.map Prod.fst) :
    dictGet d k = none := by
  induction d with
  | nil => rfl
  | cons x t ih =>
    rw [List.map_cons] at h
    rw [dictGet, show x = (x.1, x.2) from rfl]
    rw [if_neg (fun hc => h (by rw [← hc]; exact List.mem_cons_self _ _))]
    exact ih (fun hc => h (List.mem_cons_of_mem _ hc))

theorem dictGet_eq_some_of_mem {d : WDict} (hnd : (d.map Prod.fst).Nodup) {p : ℕ × ℚ}
    (hp : p ∈ d) : dictGet d p.1 = some p.2 := by
  induction d with
  | nil => exact absurd hp (List.not_mem_nil p)
  | cons x t ih =>
    rw [List.map_cons] at hnd
    obtain ⟨hx, ht⟩ := List.nodup_cons.mp hnd
    rcases List.mem_cons.mp hp with rfl | hpt
    · rw [dictGet, show p = (p.1, p.2) from rfl, if_pos rfl]
    · rw [dictGet, show x = (x.1, x.2) from rfl]
      have hne : ¬ (x.1 = p.1) := by
        intro hc
        exact hx (hc ▸ List.mem_map.mpr ⟨p, hpt, rfl⟩)
      rw [if_neg hne]
      exact ih ht hpt

theorem sharedSum_nonneg (s : Structure) (u c : ℕ)
    (hw : ∀ p ∈ s.edges.getD u [], 0 < p.2) : 0 ≤ sharedSum s u c :=
  filtered_sum_nonneg _ _ hw

theorem node_communities_compute_eq_foldPairs (s : Structure) (u : ℕ) :
    node_communities_compute s u
      = ((s.edges.getD u []).map (fun p => (commOf s p.1, p.2))).foldl
          (fun d e => dictAdd d e.1 e.2) [] := by
  rw [node_communities_compute, List.foldl_map]

theorem dictGet_node_communities_compute (s : Structure) (u : ℕ)
    (hw : ∀ p ∈ s.edges.getD u [], 0 < p.2) (c : ℕ) :
    dictGet (node_communities_compute s u) c
      = if 0 < sharedSum s u c then some (sharedSum s u c) else none := by
  rw [node_communities_compute_eq_foldPairs, dictGet_foldl_dictAdd]
  have hmf : (((s.edges.getD u []).map (fun p => (commOf s p.1, p.2))).filter
      (fun e => decide (e.1 = c)))
      = ((s.edges.getD u []).filter (fun p => decide (commOf s p.1 = c))).map
          (fun p => (commOf s p.1, p.2)) := by
    rw [List.map_filter]
    rfl
  rw [hmf]
  have hsum : ((((s.edges.getD u []).filter (fun p => decide (commOf s p.1 = c))).map
      (fun p => (commOf s p.1, p.2))).map (fun e => e.2)).sum = sharedSum s u c := by
    rw [List.map_map]
    rfl
  by_cases hpos : 0 < sharedSum s u c
  · have hfne : (s.edges.getD u []).filter (fun p => decide (commOf s p.1 = c)) ≠ [] := by
      intro hnil
      rw [sharedSum, hnil] at hpos
      exact absurd hpos (by norm_num)
    have hmne : ((s.edges.getD u []).filter (fun p => decide (commOf s p.1 = c))).map
        (fun p => (commOf s p.1, p.2)) ≠ [] := by
      intro hc
      exact hfne (List.map_eq_nil_iff.mp hc)
    rw [if_neg hmne, if_pos hpos, hsum]
    show some (Option.getD none 0 + sharedSum s u c) = some (sharedSum s u c)
    simp
  · have h0 : sharedSum s u c = 0 :=
      le_antisymm (not_lt.mp hpos) (sharedSum_nonneg s u c hw)
    have hnil : (s.edges.getD u []).filter (fun p => decide (commOf s p.1 = c)) = [] := by
      by_contra hne
      have := (filtered_sum_pos_iff (s.edges.getD u []) _ hw).mpr hne
      rw [show ((((s.edges.getD u []).filter (fun p => decide (commOf s p.1 = c))).map
        (fun p => p.2)).sum) = sharedSum s u c from rfl] at this
      exact hpos this
    rw [hnil]
    rw [show (([] : List (ℕ × ℚ)).map (fun p : ℕ × ℚ => (commOf s p.1, p.2))) = [] from rfl]
    rw [if_pos rfl, if_neg hpos]
    rfl

theorem keys_node_communities_compute (s : Structure) (u : ℕ) :
    ∀ p ∈ node_communities_compute s u, ∃ p2 ∈ s.edges.getD u [], p.1 = commOf s p2.1 := by
  intro p hp
  rw [node_communities_compute_eq_foldPairs] at hp
  rcases keys_foldl_dictAdd _ _ p hp with h | h
  · exact absurd h (by simp)
  · obtain ⟨e, he, hfst⟩ := List.mem_map.mp h
    obtain ⟨p2, hp2, rfl⟩ := List.mem_map.mp he
    exact ⟨p2, hp2, hfst.symm⟩

theorem node_communities_compute_congr (s1 s2 : Structure) (h1 : s1.edges = s2.edges)
    (h2 : s1.node_community = s2.node_community) (u : ℕ) :
    node_communities_compute s1 u = node_communities_compute s2 u := by
  simp only [node_communities_compute, commOf, h1, h2]

theorem wf_init_caches (s0 : Structure) (n : ℕ)
    (hN : s0.node_community.length = n)
    (hE : s0.edges.length = n)
    (hSR : s0.node_selfreference.length = n)
    (hcomm : ∀ u, u < n → commOf s0 u < s0.communities.length)
    (hid : ∀ c, c < s0.communities.length → (commAt s0 c).id = c)
    (hnodup : ∀ c, c < s0.communities.length → (commAt s0 c).nodes.Nodup)
    (hmem1 : ∀ c, c < s0.communities.length →
      ∀ u ∈ (commAt s0 c).nodes, u < n ∧ commOf s0 u = c)
    (hmem2 : ∀ c, c < s0.communities.length →
      ∀ u, u < n → commOf s0 u = c → u ∈ (commAt s0 c).nodes)
    (hedge : ∀ u, u < n → ∀ p ∈ s0.edges.getD u [], p.1 < n ∧ p.1 ≠ u ∧ 0 < p.2)
    (hsym : ∀ u, u < n → ∀ x, x < n → edgeWeightTo s0 u x = edgeWeightTo s0 x u) :
    WF (init_caches s0 n) := by
  have hNt : nN (init_caches s0 n) = n := hN
  have hKt : nK (init_caches s0 n) = s0.communities.length := by
    show (s0.communities.map _).length = s0.communities.length
    exact List.length_map _ _
  have hcommt : ∀ u, commOf (init_caches s0 n) u = commOf s0 u := fun _ => rfl
  have hdeg : ∀ u, u < n → degOf (init_caches s0 n) u = srOf s0 u + incidentWeight s0 u := by
    intro u hu
    show ((List.range n).map _).getD u 0 = _
    rw [getD_map_lt _ _ u (by simpa using hu) 0 0, getD_range_lt hu]
    rfl
  have hcommAt : ∀ c, c < s0.communities.length →
      commAt (init_caches s0 n) c = { commAt s0 c with
        total_degree := community_total_degree_compute
          { s0 with node_degrees := (init_caches s0 n).node_degrees } (commAt s0 c).id } := by
    intro c hc
    show (s0.communities.map _).getD c default = _
    rw [getD_map_lt _ _ c hc default default]
    rfl
  have hncw : ∀ u, u < n →
      (init_caches s0 n).node_communities_weights.getD u [] = node_communities_compute s0 u := by
    intro u hu
    show ((List.range n).map _).getD u [] = _
    rw [getD_map_lt _ _ u (by simpa using hu) [] 0, getD_range_lt hu]
    exact node_communities_compute_congr _ _ rfl rfl u
  have htot : ∀ c, c < s0.communities.length →
      (commAt (init_caches s0 n) c).total_degree
        = ∑ u ∈ Finset.range n, if commOf s0 u = c then degOf (init_caches s0 n) u else 0 := by
    intro c hc
    rw [hcommAt c hc]
    show community_total_degree_compute _ (commAt s0 c).id = _
    rw [hid c hc, community_total_degree_compute]
    exact nodesListSum (commAt s0 c).nodes (hnodup c hc) n (fun u => commOf s0 u = c)
      (fun u => ⟨fun hu => hmem1 c hc u hu, fun hu => hmem2 c hc u hu.1 hu.2⟩) _
  refine ⟨?_, ?_, ?_, ?_, ?_, ?_, ?_, ?_, ?_, ?_, ?_, ?_, ?_, ?_, ?_⟩
  · show ((List.range n).map _).length = _
    rw [List.length_map, List.length_range, hNt]
  · show s0.node_selfreference.length = _
    rw [hNt, hSR]
  · show s0.edges.length = _
    rw [hNt, hE]
  · show ((List.range n).map _).length = _
    rw [List.length_map, List.length_range, hNt]
  · intro u hu
    rw [hNt] at hu
    rw [hcommt, hKt]
    exact hcomm u hu
  · intro u hu p hp
    rw [hNt] at hu ⊢
    exact hedge u hu p hp
  · intro u hu x hx
    rw [hNt] at hu hx
    exact hsym u hu x hx
  · intro c hc
    rw [hKt] at hc
    rw [hcommAt c hc]
    exact hid c hc
  · intro c hc
    rw [hKt] at hc
    rw [hcommAt c hc]
    exact hnodup c hc
  · intro c hc u hu
    rw [hKt] at hc
    rw [hcommAt c hc] at hu
    rw [hNt]
    exact hmem1 c hc u hu
  · intro c hc u hu hcu
    rw [hKt] at hc
    rw [hNt] at hu
    rw [hcommAt c hc]
    exact hmem2 c hc u hu hcu
  · intro c hc
    rw [hKt] at hc
    rw [hNt, htot c hc]
    rfl
  · intro u hu
    rw [hNt] at hu
    rw [hdeg u hu]
    rfl
  · intro u hu p hp
    rw [hNt] at hu
    rw [hncw u hu] at hp
    obtain ⟨p2, hp2, hfst⟩ := keys_node_communities_compute s0 u p hp
    rw [hKt, hfst]
    exact hcomm p2.1 (hedge u hu p2 hp2).1
  · intro u hu c _
    rw [hNt] at hu
    rw [hncw u hu]
    exact dictGet_node_communities_compute s0 u (fun p hp => (hedge u hu p hp).2.2) c

theorem pushEdge_length (L : List (List (ℕ × ℚ))) (i : ℕ) (p : ℕ × ℚ) :
    (pushEdge L i p).length = L.length := by
  rw [pushEdge, List.length_set]

theorem adjWeight_pushEdge (L : List (List (ℕ × ℚ))) (i : ℕ) (p : ℕ × ℚ) (u x : ℕ)
    (hi : i < L.length) :
    adjWeight (pushEdge L i p) u x
      = adjWeight L u x + (if i = u ∧ p.1 = x then p.2 else 0) := by
  by_cases hu : i = u
  · subst hu
    rw [adjWeight, pushEdge, getD_set_self hi, List.filter_append, List.map_append,
      List.sum_append, adjWeight]
    by_cases hx : p.1 = x
    · simp [List.filter_cons, hx]
    · simp [List.filter_cons, hx]
  · rw [adjWeight, pushEdge, getD_set_ne hu, ← adjWeight]
    simp [hu]

theorem mkAdj_aux (n : ℕ) (es : List (ℕ × ℕ)) (hval : ValidEdges n es) :
    ∀ L : List (List (ℕ × ℚ)), L.length = n →
    (∀ u, ∀ p ∈ L.getD u [], p.1 < n ∧ p.1 ≠ u ∧ 0 < p.2) →
    (∀ u x, adjWeight L u x = adjWeight L x u) →
    (es.foldl (fun L2 e => pushEdge (pushEdge L2 e.2 (e.1, 1)) e.1 (e.2, 1)) L).length = n ∧
    (∀ u, ∀ p ∈ (es.foldl (fun L2 e => pushEdge (pushEdge L2 e.2 (e.1, 1)) e.1 (e.2, 1)) L).getD
        u [], p.1 < n ∧ p.1 ≠ u ∧ 0 < p.2) ∧
    (∀ u x, adjWeight (es.foldl (fun L2 e => pushEdge (pushEdge L2 e.2 (e.1, 1)) e.1 (e.2, 1)) L)
        u x
      = adjWeight (es.foldl (fun L2 e => pushEdge (pushEdge L2 e.2 (e.1, 1)) e.1 (e.2, 1)) L)
        x u) := by
  induction es with
  | nil => intro L h1 h2 h3; exact ⟨h1, h2, h3⟩
  | cons e t ih =>
    intro L h1 h2 h3
    obtain ⟨he1, he2, hne⟩ := hval e (List.mem_cons_self e t)
    have hval2 : ValidEdges n t := fun e2 he2m => hval e2 (List.mem_cons_of_mem e he2m)
    have hlen1 : (pushEdge L e.2 (e.1, 1)).length = n := by rw [pushEdge_length, h1]
    have hlen2 : (pushEdge (pushEdge L e.2 (e.1, 1)) e.1 (e.2, 1)).length = n := by
      rw [pushEdge_length, hlen1]
    have hentry : ∀ u, ∀ p ∈ (pushEdge (pushEdge L e.2 (e.1, 1)) e.1 (e.2, 1)).getD u [],
        p.1 < n ∧ p.1 ≠ u ∧ 0 < p.2 := by
      intro u p hp
      by_cases hu1 : e.1 = u
      · subst hu1
        rw [pushEdge, getD_set_self (by rw [hlen1]; exact he1)] at hp
        rcases List.mem_append.mp hp with hp2 | hp2
        · by_cases hu2 : e.2 = e.1
          · exact absurd hu2 (fun hc => hne hc.symm)
          · rw [pushEdge, getD_set_ne hu2] at hp2
            exact h2 e.1 p hp2
        · have hpe := List.mem_singleton.mp hp2
          subst hpe
          exact ⟨he2, fun hc => hne hc.symm, by norm_num⟩
      · rw [pushEdge, getD_set_ne hu1] at hp
        by_cases hu2 : e.2 = u
        · subst hu2
          rw [pushEdge, getD_set_self (by rw [h1]; exact he2)] at hp
          rcases List.mem_append.mp hp with hp2 | hp2
          · exact h2 e.2 p hp2
          · have hpe := List.mem_singleton.mp hp2
            subst hpe
            exact ⟨he1, hne, by norm_num⟩
        · rw [pushEdge, getD_set_ne hu2] at hp
          exact h2 u p hp
    have hsym2 : ∀ u x,
        adjWeight (pushEdge (pushEdge L e.2 (e.1, 1)) e.1 (e.2, 1)) u x
          = adjWeight (pushEdge (pushEdge L e.2 (e.1, 1)) e.1 (e.2, 1)) x u := by
      intro u x
      rw [adjWeight_pushEdge _ _ _ _ _ (by rw [hlen1]; exact he1),
        adjWeight_pushEdge _ _ _ _ _ (by rw [h1]; exact he2),
        adjWeight_pushEdge _ _ _ _ _ (by rw [hlen1]; exact he1),
        adjWeight_pushEdge _ _ _ _ _ (by rw [h1]; exact he2), h3 u x]
      by_cases hc1 : e.2 = u ∧ e.1 = x
      · rw [if_pos hc1, if_pos (show e.1 = x ∧ e.2 = u from ⟨hc1.2, hc1.1⟩)]
        by_cases hc2 : e.1 = u ∧ e.2 = x
        · rw [if_pos hc2, if_pos (show e.2 = x ∧ e.1 = u from ⟨hc2.2, hc2.1⟩)]
        · rw [if_neg hc2, if_neg (show ¬ (e.2 = x ∧ e.1 = u) from fun hc => hc2 ⟨hc.2, hc.1⟩)]
          ring
      · rw [if_neg hc1, if_neg (show ¬ (e.1 = x ∧ e.2 = u) from fun hc => hc1 ⟨hc.2, hc.1⟩)]
        by_cases hc2 : e.1 = u ∧ e.2 = x
        · rw [if_pos hc2, if_pos (show e.2 = x ∧ e.1 = u from ⟨hc2.2, hc2.1⟩)]
          ring
        · rw [if_neg hc2, if_neg (show ¬ (e.2 = x ∧ e.1 = u) from fun hc => hc2 ⟨hc.2, hc.1⟩)]
    exact ih hval2 _ hlen2 hentry hsym2

theorem wf_mkStructure (n : ℕ) (es : List (ℕ × ℕ)) (hval : ValidEdges n es) :
    WF (mkStructure n es) := by
  have hrepl : ∀ u, (List.replicate n ([] : List (ℕ × ℚ))).getD u [] = [] :=
    getD_of_all_eq (fun x hx => List.eq_of_mem_replicate hx)
  have hbase := mkAdj_aux n es hval (List.replicate n []) (by simp)
    (by intro u p hp; rw [hrepl u] at hp; exact absurd hp (List.not_mem_nil p))
    (by intro u x; rw [adjWeight, adjWeight, hrepl u, hrepl x]; rfl)
  obtain ⟨hlen, hentries, hsym⟩ := hbase
  have hKn : (mkBase n es).communities.length = n := by
    show ((List.range n).map _).length = n
    rw [List.length_map, List.length_range]
  have hAt : ∀ c, c < n → commAt (mkBase n es) c = (⟨c, [c], 0⟩ : Community) := by
    intro c hc
    show ((List.range n).map _).getD c default = _
    rw [getD_map_lt _ _ c (by simpa using hc) default 0, getD_range_lt hc]
  have hcommB : ∀ u, u < n → commOf (mkBase n es) u = u := by
    intro u hu
    show (List.range n).getD u 0 = u
    exact getD_range_lt hu
  refine wf_init_caches (mkBase n es) n (by simp [mkBase]) hlen (by simp [mkBase]) ?_ ?_ ?_ ?_
    ?_ ?_ ?_
  · intro u hu
    rw [hcommB u hu, hKn]
    exact hu
  · intro c hc
    rw [hKn] at hc
    rw [hAt c hc]
  · intro c hc
    rw [hKn] at hc
    rw [hAt c hc]
    simp
  · intro c hc u hu
    rw [hKn] at hc
    rw [hAt c hc] at hu
    have hu2 := List.mem_singleton.mp hu
    subst hu2
    exact ⟨hc, hcommB u hc⟩
  · intro c hc u hu hcu
    rw [hKn] at hc
    rw [hAt c hc]
    rw [hcommB u hu] at hcu
    subst hcu
    exact List.mem_singleton.mpr rfl
  · intro u _ p hp
    exact hentries u p hp
  · intro u _ x _
    exact hsym u x

theorem foldSet_length {β : Type} (es : List (ℕ × β)) (G : List WDict → ℕ × β → WDict) :
    ∀ L : List WDict, (es.foldl (fun L2 p => L2.set p.1 (G L2 p)) L).length = L.length := by
  induction es with
  | nil => intro L; rfl
  | cons p t ih => intro L; rw [List.foldl_cons, ih]; exact List.length_set L p.1 _

theorem keys_ncwMoveUpd_subset {d : WDict} {a c : ℕ} {w : ℚ} :
    ∀ p ∈ ncwMoveUpd d a c w, p.1 = c ∨ p.1 = a ∨ p.1 ∈ d.map Prod.fst := by
  intro p hp
  rw [ncwMoveUpd] at hp
  have hsub1 : ∀ q : ℕ × ℚ,
      q ∈ (match dictGet d a with
          | some x => if x - w ≤ 0 then dictDel d a else dictSet d a (x - w)
          | none => d) → q.1 = a ∨ q.1 ∈ d.map Prod.fst := by
    intro q hq
    cases hg : dictGet d a with
    | some x =>
      simp only [hg] at hq
      by_cases hle : x - w ≤ 0
      · rw [if_pos hle] at hq
        exact Or.inr (List.mem_map.mpr ⟨q, List.mem_of_mem_filter hq, rfl⟩)
      · rw [if_neg hle] at hq
        exact keys_dictSet_subset q hq
    | none =>
      simp only [hg] at hq
      exact Or.inr (List.mem_map.mpr ⟨q, hq, rfl⟩)
  cases hg2 : dictGet (match dictGet d a with
      | some x => if x - w ≤ 0 then dictDel d a else dictSet d a (x - w)
      | none => d) c with
  | some y =>
    simp only [hg2] at hp
    rcases keys_dictSet_subset p hp with h | h
    · exact Or.inl h
    · obtain ⟨q, hq, hfst⟩ := List.mem_map.mp h
      rcases hsub1 q hq with h2 | h2
      · exact Or.inr (Or.inl (hfst ▸ h2))
      · exact Or.inr (Or.inr (hfst ▸ h2))
  | none =>
    simp only [hg2] at hp
    rcases keys_dictSet_subset p hp with h | h
    · exact Or.inl h
    · obtain ⟨q, hq, hfst⟩ := List.mem_map.mp h
      rcases hsub1 q hq with h2 | h2
      · exact Or.inr (Or.inl (hfst ▸ h2))
      · exact Or.inr (Or.inr (hfst ▸ h2))

theorem keys_foldl_ncwMoveUpd (es : List (ℕ × ℚ)) (a c : ℕ) :
    ∀ d0 : WDict, ∀ p ∈ es.foldl (fun d2 p2 => ncwMoveUpd d2 a c p2.2) d0,
      p.1 = c ∨ p.1 = a ∨ p.1 ∈ d0.map Prod.fst := by
  induction es with
  | nil => intro d0 p hp; exact Or.inr (Or.inr (List.mem_map.mpr ⟨p, hp, rfl⟩))
  | cons e t ih =>
    intro d0 p hp
    rw [List.foldl_cons] at hp
    rcases ih (ncwMoveUpd d0 a c e.2) p hp with h | h | h
    · exact Or.inl h
    · exact Or.inr (Or.inl h)
    · obtain ⟨q, hq, hfst⟩ := List.mem_map.mp h
      rcases keys_ncwMoveUpd_subset q hq with h2 | h2 | h2
      · exact Or.inl (hfst ▸ h2)
      · exact Or.inr (Or.inl (hfst ▸ h2))
      · exact Or.inr (Or.inr (hfst ▸ h2))


theorem wf_moveNodeTo (s : Structure) (hW : WF s) (v c : ℕ) (hv : v < nN s)
    (hc : c < nK s) (hne : c ≠ commOf s v) : WF (moveNodeTo s v c) := by
  obtain ⟨hLdeg, hLsr, hLe, hLncw, hcomm, hedge, hsym, hid, hnodup, hmem1, hmem2, htot,
    hdeg, hkeys, hncw⟩ := hW
  have ha : commOf s v < nK s := hcomm v hv
  have hac : commOf s v ≠ c := fun h => hne h.symm
  have hNt : nN (moveNodeTo s v c) = nN s := List.length_set _ _ _
  have hKt : nK (moveNodeTo s v c) = nK s := by
    show (listModify (listModify s.communities (commOf s v) _) c _).length = _
    rw [listModify_length, listModify_length]
    rfl
  have hEt : (moveNodeTo s v c).edges = s.edges := rfl
  have hcommv : commOf (moveNodeTo s v c) v = c := by
    show (s.node_community.set v c).getD v 0 = c
    exact getD_set_self hv c 0
  have hcommne : ∀ u, u ≠ v → commOf (moveNodeTo s v c) u = commOf s u := by
    intro u hu
    show (s.node_community.set v c).getD u 0 = s.node_community.getD u 0
    exact getD_set_ne (fun hvu => hu hvu.symm) c 0
  have hAta : commAt (moveNodeTo s v c) (commOf s v)
      = { commAt s (commOf s v) with
          nodes := (commAt s (commOf s v)).nodes.erase v,
          total_degree := (commAt s (commOf s v)).total_degree - degOf s v } := by
    show (listModify (listModify s.communities (commOf s v) _) c _).getD (commOf s v) default = _
    rw [listModify_getD_ne _ c (commOf s v) hne _ default,
      listModify_getD_self (by exact ha) _ default]
    rfl
  have hAtc : commAt (moveNodeTo s v c) c
      = { commAt s c with
          nodes := (commAt s c).nodes ++ [v],
          total_degree := (commAt s c).total_degree + degOf s v } := by
    show (listModify (listModify s.communities (commOf s v) _) c _).getD c default = _
    rw [listModify_getD_self (by rw [listModify_length]; exact hc) _ default,
      listModify_getD_ne _ (commOf s v) c hac _ default]
    rfl
  have hAtother : ∀ d2, d2 ≠ commOf s v → d2 ≠ c →
      commAt (moveNodeTo s v c) d2 = commAt s d2 := by
    intro d2 h1 h2
    show (listModify (listModify s.communities (commOf s v) _) c _).getD d2 default = _
    rw [listModify_getD_ne _ c d2 (fun h => h2 h.symm) _ default,
      listModify_getD_ne _ (commOf s v) d2 (fun h => h1 h.symm) _ default]
    rfl
  have hvnotinc : v ∉ (commAt s c).nodes := by
    intro hmem
    exact hne ((hmem1 c hc v hmem).2).symm
  have hdegt : ∀ u, degOf (moveNodeTo s v c) u = degOf s u := fun _ => rfl
  refine ⟨?_, ?_, ?_, ?_, ?_, ?_, ?_, ?_, ?_, ?_, ?_, ?_, ?_, ?_, ?_⟩
  · rw [hNt]; exact hLdeg
  · rw [hNt]; exact hLsr
  · rw [hNt]; exact hLe
  · rw [hNt]
    show ((s.edges.getD v []).foldl
        (fun L p => L.set p.1 (ncwMoveUpd (L.getD p.1 []) (commOf s v) c p.2))
        s.node_communities_weights).length = nN s
    exact (foldSet_length _ _ s.node_communities_weights).trans hLncw
  · intro u hu
    rw [hNt] at hu
    rw [hKt]
    by_cases huv : u = v
    · subst huv
      rw [hcommv]
      exact hc
    · rw [hcommne u huv]
      exact hcomm u hu
  · intro u hu p hp
    rw [hNt] at hu ⊢
    rw [hEt] at hp
    exact hedge u hu p hp
  · intro u hu x hx
    rw [hNt] at hu hx
    show edgeWeightTo s u x = edgeWeightTo s x u
    exact hsym u hu x hx
  · intro d2 hd2
    rw [hKt] at hd2
    by_cases h1 : d2 = commOf s v
    · subst h1
      rw [hAta]
      exact hid _ ha
    · by_cases h2 : d2 = c
      · subst d2
        rw [hAtc]
        exact hid _ hc
      · rw [hAtother d2 h1 h2]
        exact hid d2 hd2
  · intro d2 hd2
    rw [hKt] at hd2
    by_cases h1 : d2 = commOf s v
    · subst h1
      rw [hAta]
      exact List.Nodup.erase v (hnodup _ ha)
    · by_cases h2 : d2 = c
      · subst d2
        rw [hAtc]
        show ((commAt s c).nodes ++ [v]).Nodup
        rw [List.nodup_append]
        exact ⟨hnodup _ hc, List.nodup_singleton v,
          fun u hu hv2 => hvnotinc ((List.mem_singleton.mp hv2) ▸ hu)⟩
      · rw [hAtother d2 h1 h2]
        exact hnodup d2 hd2
  · intro d2 hd2 u hu
    rw [hKt] at hd2
    rw [hNt]
    by_cases h1 : d2 = commOf s v
    · subst h1
      rw [hAta] at hu
      have hu2 := (List.Nodup.mem_erase_iff (hnodup _ ha)).mp hu
      obtain ⟨huv, humem⟩ := hu2
      obtain ⟨hult, hucomm⟩ := hmem1 _ ha u humem
      exact ⟨hult, by rw [hcommne u huv]; exact hucomm⟩
    · by_cases h2 : d2 = c
      · subst d2
        rw [hAtc] at hu
        rcases List.mem_append.mp hu with hu2 | hu2
        · obtain ⟨hult, hucomm⟩ := hmem1 _ hc u hu2
          have huv : u ≠ v := fun h => hne (h ▸ hucomm).symm
          exact ⟨hult, by rw [hcommne u huv]; exact hucomm⟩
        · have hu2 := List.mem_singleton.mp hu2
          subst hu2
          exact ⟨hv, hcommv⟩
      · rw [hAtother d2 h1 h2] at hu
        obtain ⟨hult, hucomm⟩ := hmem1 d2 hd2 u hu
        have huv : u ≠ v := fun h => h1 (by rw [← hucomm, h])
        exact ⟨hult, by rw [hcommne u huv]; exact hucomm⟩
  · intro d2 hd2 u hu hcu
    rw [hKt] at hd2
    rw [hNt] at hu
    by_cases huv : u = v
    · subst huv
      rw [hcommv] at hcu
      subst hcu
      rw [hAtc]
      exact List.mem_append.mpr (Or.inr (List.mem_singleton.mpr rfl))
    · rw [hcommne u huv] at hcu
      by_cases h1 : d2 = commOf s v
      · subst h1
        rw [hAta]
        rw [List.Nodup.mem_erase_iff (hnodup _ ha)]
        exact ⟨huv, hmem2 _ ha u hu hcu⟩
      · by_cases h2 : d2 = c
        · rw [h2, hAtc]
          exact List.mem_append.mpr (Or.inl (hmem2 _ hc u hu (hcu.trans h2)))
        · rw [hAtother d2 h1 h2]
          exact hmem2 d2 hd2 u hu hcu
  · intro d2 hd2
    rw [hKt] at hd2
    rw [hNt]
    by_cases h1 : d2 = commOf s v
    · subst h1
      rw [hAta]
      show (commAt s (commOf s v)).total_degree - degOf s v = _
      rw [htot _ ha]
      rw [sum_range_update (nN s)
        (fun u => if commOf (moveNodeTo s v c) u = commOf s v then degOf (moveNodeTo s v c) u
          else 0)
        (fun u => if commOf s u = commOf s v then degOf s u else 0) v hv ?_]
      · rw [if_neg (show ¬ commOf (moveNodeTo s v c) v = commOf s v by
            rw [hcommv]; exact hne), if_pos rfl]
        ring
      · intro u _ huv
        show (if commOf (moveNodeTo s v c) u = commOf s v then degOf (moveNodeTo s v c) u
            else 0) = (if commOf s u = commOf s v then degOf s u else 0)
        rw [hcommne u huv, hdegt]
    · by_cases h2 : d2 = c
      · subst d2
        rw [hAtc]
        show (commAt s c).total_degree + degOf s v = _
        rw [htot _ hc]
        rw [sum_range_update (nN s)
          (fun u => if commOf (moveNodeTo s v c) u = c then degOf (moveNodeTo s v c) u else 0)
          (fun u => if commOf s u = c then degOf s u else 0) v hv ?_]
        · rw [if_pos hcommv, if_neg (fun h => hne h.symm), hdegt]
          ring
        · intro u _ huv
          show (if commOf (moveNodeTo s v c) u = c then degOf (moveNodeTo s v c) u else 0)
              = (if commOf s u = c then degOf s u else 0)
          rw [hcommne u huv, hdegt]
      · rw [hAtother d2 h1 h2, htot d2 hd2]
        rw [sum_range_update (nN s)
          (fun u => if commOf (moveNodeTo s v c) u = d2 then degOf (moveNodeTo s v c) u else 0)
          (fun u => if commOf s u = d2 then degOf s u else 0) v hv ?_]
        · rw [if_neg (show ¬ commOf (moveNodeTo s v c) v = d2 by
            rw [hcommv]; exact fun h => h2 h.symm), if_neg (fun h => h1 h.symm)]
          ring
        · intro u _ huv
          show (if commOf (moveNodeTo s v c) u = d2 then degOf (moveNodeTo s v c) u else 0)
              = (if commOf s u = d2 then degOf s u else 0)
          rw [hcommne u huv, hdegt]
  · intro u hu
    rw [hNt] at hu
    rw [hdegt]
    show degOf s u = srOf s u + incidentWeight s u
    exact hdeg u hu
  · intro u hu p hp
    rw [hNt] at hu
    rw [hKt]
    have hfold : (moveNodeTo s v c).node_communities_weights.getD u []
        = ((s.edges.getD v []).filter (fun p2 => p2.1 = u)).foldl
            (fun d p2 => ncwMoveUpd d (commOf s v) c p2.2)
            (s.node_communities_weights.getD u []) := by
      show ((s.edges.getD v []).foldl _ s.node_communities_weights).getD u [] = _
      exact foldNcw_getD _ _ _ _ u (by rw [hLncw]; exact hu)
    rw [hfold] at hp
    rcases keys_foldl_ncwMoveUpd _ _ _ _ p hp with h | h | h
    · rw [h]; exact hc
    · rw [h]; exact ha
    · obtain ⟨q, hq, hfst⟩ := List.mem_map.mp h
      rw [← hfst]
      exact hkeys u hu q hq
  · intro u hu cc hcc
    rw [hNt] at hu
    rw [hKt] at hcc
    have hupos : ∀ p ∈ s.edges.getD u [], 0 < p.2 := fun p hp => (hedge u hu p hp).2.2
    have hesupos : ∀ p ∈ (s.edges.getD v []).filter (fun p2 => p2.1 = u), 0 < p.2 :=
      fun p hp => (hedge v hv p (List.mem_of_mem_filter hp)).2.2
    have hWsym : edgeWeightTo s u v = edgeWeightTo s v u := hsym u hu v hv
    have hWW2 : (((s.edges.getD v []).filter (fun p2 => p2.1 = u)).map (fun p => p.2)).sum
        = edgeWeightTo s u v := hWsym.symm
    set rest : ℚ := (((s.edges.getD u []).filter
        (fun p => decide (commOf s p.1 = commOf s v) && !(decide (p.1 = v)))).map
        (fun p => p.2)).sum with hrest
    have hrest0 : 0 ≤ rest := filtered_sum_nonneg _ _ hupos
    have hsb0 : 0 ≤ sharedSum s u c := sharedSum_nonneg s u c hupos
    have hf1 : (s.edges.getD u []).filter
          (fun p => decide (commOf s p.1 = commOf s v) && decide (p.1 = v))
        = (s.edges.getD u []).filter (fun p => decide (p.1 = v)) := by
      refine List.filter_congr ?_
      intro p hp
      by_cases hpv : p.1 = v
      · simp [hpv]
      · simp [hpv]
    have hsplitA : sharedSum s u (commOf s v) = edgeWeightTo s u v + rest := by
      have hsp : sharedSum s u (commOf s v)
          = (((s.edges.getD u []).filter
              (fun p => decide (commOf s p.1 = commOf s v) && decide (p.1 = v))).map
              (fun p => p.2)).sum
            + (((s.edges.getD u []).filter
              (fun p => decide (commOf s p.1 = commOf s v) && !(decide (p.1 = v)))).map
              (fun p => p.2)).sum :=
        sum_filter_split (s.edges.getD u [])
          (fun p => decide (commOf s p.1 = commOf s v)) (fun p => decide (p.1 = v))
      rw [hsp, hf1, hrest]
      rfl
    have hold : dictGet (s.node_communities_weights.getD u []) (commOf s v)
        = if 0 < rest + (((s.edges.getD v []).filter (fun p2 => p2.1 = u)).map
              (fun p => p.2)).sum
          then some (rest + (((s.edges.getD v []).filter (fun p2 => p2.1 = u)).map
              (fun p => p.2)).sum)
          else none := by
      have hwe : edgeWeightTo s u v + rest
          = rest + (((s.edges.getD v []).filter (fun p2 => p2.1 = u)).map
              (fun p => p.2)).sum := by
        rw [hWW2]
        ring
      rw [hncw u hu (commOf s v) ha, hsplitA, hwe]
    have hb : dictGet (s.node_communities_weights.getD u []) c
        = if 0 < sharedSum s u c then some (sharedSum s u c) else none := hncw u hu c hc
    obtain ⟨hres1, hres2, hres3⟩ := ncwMoveUpd_fold_lookup (commOf s v) c hac
      ((s.edges.getD v []).filter (fun p2 => p2.1 = u))
      (s.node_communities_weights.getD u []) rest (sharedSum s u c)
      hesupos hrest0 hsb0 hold hb
    have hfold : (moveNodeTo s v c).node_communities_weights.getD u []
        = ((s.edges.getD v []).filter (fun p2 => p2.1 = u)).foldl
            (fun d p2 => ncwMoveUpd d (commOf s v) c p2.2)
            (s.node_communities_weights.getD u []) := by
      show ((s.edges.getD v []).foldl _ s.node_communities_weights).getD u [] = _
      exact foldNcw_getD _ _ _ _ u (by rw [hLncw]; exact hu)
    rw [hfold]
    have hfeq : (s.edges.getD u []).filter
          (fun p => decide (commOf (moveNodeTo s v c) p.1 = commOf s v))
        = (s.edges.getD u []).filter
          (fun p => decide (commOf s p.1 = commOf s v) && !(decide (p.1 = v))) := by
      refine List.filter_congr ?_
      intro p hp
      by_cases hpv : p.1 = v
      · simp [hpv, hcommv, hne]
      · rw [hcommne p.1 hpv]
        simp [hpv]
    have hsharedTa : sharedSum (moveNodeTo s v c) u (commOf s v) = rest := by
      show ((((moveNodeTo s v c).edges.getD u []).filter
          (fun p => decide (commOf (moveNodeTo s v c) p.1 = commOf s v))).map
          (fun p => p.2)).sum = rest
      rw [hEt, hfeq, hrest]
    have hfcA : (s.edges.getD u []).filter
          (fun p => decide (commOf (moveNodeTo s v c) p.1 = c) && decide (p.1 = v))
        = (s.edges.getD u []).filter (fun p => decide (p.1 = v)) := by
      refine List.filter_congr ?_
      intro p hp
      by_cases hpv : p.1 = v
      · simp [hpv, hcommv]
      · simp [hpv]
    have hfcB : (s.edges.getD u []).filter
          (fun p => decide (commOf (moveNodeTo s v c) p.1 = c) && !(decide (p.1 = v)))
        = (s.edges.getD u []).filter (fun p => decide (commOf s p.1 = c)) := by
      refine List.filter_congr ?_
      intro p hp
      by_cases hpv : p.1 = v
      · have hnc : ¬ (commOf s v = c) := fun h => hne h.symm
        simp [hpv, hcommv, hnc]
      · rw [hcommne p.1 hpv]
        simp [hpv]
    have hsharedTc : sharedSum (moveNodeTo s v c) u c
        = sharedSum s u c + edgeWeightTo s u v := by
      have hsp : sharedSum (moveNodeTo s v c) u c
          = (((s.edges.getD u []).filter
              (fun p => decide (commOf (moveNodeTo s v c) p.1 = c) && decide (p.1 = v))).map
              (fun p => p.2)).sum
            + (((s.edges.getD u []).filter
              (fun p => decide (commOf (moveNodeTo s v c) p.1 = c)
                && !(decide (p.1 = v)))).map (fun p => p.2)).sum := by
        show ((((moveNodeTo s v c).edges.getD u []).filter
            (fun p => decide (commOf (moveNodeTo s v c) p.1 = c))).map (fun p => p.2)).sum = _
        rw [hEt]
        exact sum_filter_split (s.edges.getD u [])
          (fun p => decide (commOf (moveNodeTo s v c) p.1 = c)) (fun p => decide (p.1 = v))
      rw [hsp, hfcA, hfcB]
      show edgeWeightTo s u v + sharedSum s u c = _
      ring
    by_cases h1 : cc = commOf s v
    · subst h1
      rw [hres1, hsharedTa]
    · by_cases h2 : cc = c
      · subst cc
        rw [hres2, hWW2, hsharedTc]
      · rw [hres3 cc h1 h2, hncw u hu cc hcc]
        have hfother : (s.edges.getD u []).filter
              (fun p => decide (commOf (moveNodeTo s v c) p.1 = cc))
            = (s.edges.getD u []).filter (fun p => decide (commOf s p.1 = cc)) := by
          refine List.filter_congr ?_
          intro p hp
          by_cases hpv : p.1 = v
          · have hx1 : ¬ (c = cc) := fun h => h2 h.symm
            have hx2 : ¬ (commOf s v = cc) := fun h => h1 h.symm
            simp [hpv, hcommv, hx1, hx2]
          · rw [hcommne p.1 hpv]
        have hsharedTother : sharedSum (moveNodeTo s v c) u cc = sharedSum s u cc := by
          show ((((moveNodeTo s v c).edges.getD u []).filter
              (fun p => decide (commOf (moveNodeTo s v c) p.1 = cc))).map
              (fun p => p.2)).sum = _
          rw [hEt, hfother]
          rfl
        rw [hsharedTother]

theorem buildCmap_snd : ∀ (cs : List Community) (n : ℕ),
    (buildCmap cs n).map Prod.snd = List.range' n (buildCmap cs n).length := by
  intro cs
  induction cs with
  | nil => intro n; rfl
  | cons c t ih =>
    intro n
    rw [buildCmap]
    by_cases h : c.nodes.length > 0
    · rw [if_pos h, List.map_cons, ih (n + 1), List.length_cons]
      rfl
    · rw [if_neg h]
      exact ih n

theorem buildCmap_fst_sublist : ∀ (cs : List Community) (n : ℕ),
    ((buildCmap cs n).map Prod.fst).Sublist (cs.map (fun c => c.id)) := by
  intro cs
  induction cs with
  | nil => intro n; exact List.Sublist.refl []
  | cons c t ih =>
    intro n
    rw [buildCmap]
    by_cases h : c.nodes.length > 0
    · rw [if_pos h, List.map_cons, List.map_cons]
      exact List.Sublist.cons₂ _ (ih (n + 1))
    · rw [if_neg h, List.map_cons]
      exact List.Sublist.cons _ (ih n)

theorem buildCmap_mem_fst : ∀ (cs : List Community) (n : ℕ) (p : ℕ × ℕ),
    p ∈ buildCmap cs n → ∃ c ∈ cs, c.id = p.1 ∧ 0 < c.nodes.length := by
  intro cs
  induction cs with
  | nil => intro n p hp; exact absurd hp (List.not_mem_nil p)
  | cons c t ih =>
    intro n p hp
    rw [buildCmap] at hp
    by_cases h : c.nodes.length > 0
    · rw [if_pos h] at hp
      rcases List.mem_cons.mp hp with rfl | hp2
      · exact ⟨c, List.mem_cons_self c t, rfl, h⟩
      · obtain ⟨c2, hc2, hid2, hn2⟩ := ih (n + 1) p hp2
        exact ⟨c2, List.mem_cons_of_mem c hc2, hid2, hn2⟩
    · rw [if_neg h] at hp
      obtain ⟨c2, hc2, hid2, hn2⟩ := ih n p hp
      exact ⟨c2, List.mem_cons_of_mem c hc2, hid2, hn2⟩

theorem buildCmap_mem_of_nonempty : ∀ (cs : List Community) (n : ℕ) (c : Community),
    c ∈ cs → 0 < c.nodes.length → ∃ j, (c.id, j) ∈ buildCmap cs n := by
  intro cs
  induction cs with
  | nil => intro n c hc _; exact absurd hc (List.not_mem_nil c)
  | cons c0 t ih =>
    intro n c hc hlen
    rw [buildCmap]
    by_cases h : c0.nodes.length > 0
    · rw [if_pos h]
      rcases List.mem_cons.mp hc with rfl | hct
      · exact ⟨n, List.mem_cons_self _ _⟩
      · obtain ⟨j, hj⟩ := ih (n + 1) c hct hlen
        exact ⟨j, List.mem_cons_of_mem _ hj⟩
    · rw [if_neg h]
      rcases List.mem_cons.mp hc with rfl | hct
      · exact absurd hlen h
      · exact ih n c hct hlen

theorem cmapGet_of_mem {l : List (ℕ × ℕ)} (hnd : (l.map Prod.fst).Nodup) {k j : ℕ}
    (h : (k, j) ∈ l) : cmapGet l k = j := by
  induction l with
  | nil => exact absurd h (List.not_mem_nil _)
  | cons x t ih =>
    rw [List.map_cons] at hnd
    obtain ⟨hx, ht⟩ := List.nodup_cons.mp hnd
    rcases List.mem_cons.mp h with heq | h2
    · obtain rfl : x = (k, j) := heq.symm
      rw [cmapGet, List.find?_cons_of_pos _ (by simp)]
      rfl
    · have hxk : ¬ (x.1 = k) := fun hk => hx (by rw [hk]; exact List.mem_map.mpr ⟨(k, j), h2, rfl⟩)
      rw [cmapGet, List.find?_cons_of_neg _ (by simp [hxk])]
      exact ih ht h2

theorem getD_mem {α : Type} {l : List α} {i : ℕ} (h : i < l.length) (d : α) :
    l.getD i d ∈ l := by
  rw [List.getD_eq_getElem?_getD, List.getElem?_eq_getElem h, Option.getD_some]
  exact List.getElem_mem h

theorem map_id_eq_range (s : Structure) (hid : ∀ c, c < nK s → (commAt s c).id = c) :
    s.communities.map (fun c => c.id) = List.range (nK s) := by
  refine List.ext_get ?_ ?_
  · rw [List.length_map, List.length_range]
    rfl
  · intro i h1 h2
    rw [List.get_eq_getElem, List.get_eq_getElem, List.getElem_map, List.getElem_range]
    have hlen : i < s.communities.length := by
      rw [List.length_map] at h1
      exact h1
    have hg : s.communities.getD i default = s.communities[i] := by
      rw [List.getD_eq_getElem?_getD, List.getElem?_eq_getElem hlen, Option.getD_some]
    rw [← hg]
    exact hid i hlen

theorem merge_nodes_eq_init (s : Structure) :
    merge_nodes s = init_caches (mergeBase s) (cmapOf s).length := rfl

theorem cmap_fst_nodup (s : Structure) (hid : ∀ c, c < nK s → (commAt s c).id = c) :
    ((cmapOf s).map Prod.fst).Nodup := by
  have hsub := buildCmap_fst_sublist s.communities 0
  rw [map_id_eq_range s hid] at hsub
  exact List.Nodup.sublist hsub (List.nodup_range _)

theorem cmap_snd_range (s : Structure) :
    (cmapOf s).map Prod.snd = List.range (cmapOf s).length := by
  rw [cmapOf, buildCmap_snd, ← List.range_eq_range']

theorem cmap_snd_nodup (s : Structure) : ((cmapOf s).map Prod.snd).Nodup := by
  rw [cmap_snd_range]
  exact List.nodup_range _

theorem cmap_getD_snd (s : Structure) (j : ℕ) (hj : j < (cmapOf s).length) :
    ((cmapOf s).getD j default).2 = j := by
  have h := getD_map_lt (cmapOf s) Prod.snd j hj 0 default
  rw [cmap_snd_range, getD_range_lt hj] at h
  exact h.symm

theorem cmap_mem_snd_lt (s : Structure) (p : ℕ × ℕ) (hp : p ∈ cmapOf s) :
    p.2 < (cmapOf s).length := by
  have hm : p.2 ∈ (cmapOf s).map Prod.snd := List.mem_map.mpr ⟨p, hp, rfl⟩
  rw [cmap_snd_range] at hm
  exact List.mem_range.mp hm

theorem cmap_mem_fst (s : Structure) (hid : ∀ c, c < nK s → (commAt s c).id = c)
    (p : ℕ × ℕ) (hp : p ∈ cmapOf s) :
    p.1 < nK s ∧ 0 < (commAt s p.1).nodes.length := by
  obtain ⟨c, hc, hcid, hclen⟩ := buildCmap_mem_fst s.communities 0 p hp
  obtain ⟨i, hget⟩ := List.mem_iff_get.mp hc
  have hil : (i : ℕ) < nK s := i.isLt
  have hcomm : commAt s i = c := by
    rw [commAt, List.getD_eq_getElem?_getD, List.getElem?_eq_getElem i.isLt, Option.getD_some,
      ← List.get_eq_getElem, hget]
  have hidc : c.id = (i : ℕ) := by rw [← hcomm]; exact hid i hil
  have hp1 : p.1 = (i : ℕ) := by rw [← hcid, hidc]
  rw [hp1, hcomm]
  exact ⟨hil, hclen⟩

theorem cmap_exists (s : Structure) (hid : ∀ c, c < nK s → (commAt s c).id = c)
    (d : ℕ) (hd : d < nK s) (hne : 0 < (commAt s d).nodes.length) :
    (d, cmapGet (cmapOf s) d) ∈ cmapOf s ∧ cmapGet (cmapOf s) d < (cmapOf s).length := by
  have hcm : commAt s d ∈ s.communities :=
    getD_mem (show d < s.communities.length from hd) default
  obtain ⟨j, hj⟩ := buildCmap_mem_of_nonempty s.communities 0 (commAt s d) hcm hne
  rw [hid d hd] at hj
  have hget : cmapGet (cmapOf s) d = j := cmapGet_of_mem (cmap_fst_nodup s hid) hj
  rw [hget]
  exact ⟨hj, cmap_mem_snd_lt s (d, j) hj⟩

theorem cmap_snd_inj (s : Structure) {p q2 : ℕ × ℕ} (hp : p ∈ cmapOf s)
    (hq : q2 ∈ cmapOf s) (h : p.2 = q2.2) : p = q2 :=
  List.inj_on_of_nodup_map (cmap_snd_nodup s) hp hq h

theorem cmapGet_eq_iff (s : Structure) (hid : ∀ c, c < nK s → (commAt s c).id = c)
    (d : ℕ) (hd : d < nK s) (hne : 0 < (commAt s d).nodes.length)
    (x : ℕ) (hx : x < (cmapOf s).length) :
    cmapGet (cmapOf s) d = x ↔ d = ((cmapOf s).getD x default).1 := by
  constructor
  · intro hcg
    obtain ⟨hmem, _⟩ := cmap_exists s hid d hd hne
    rw [hcg] at hmem
    have hxm : (cmapOf s).getD x default ∈ cmapOf s := getD_mem hx default
    have heq : (d, x) = (cmapOf s).getD x default :=
      cmap_snd_inj s hmem hxm (by rw [cmap_getD_snd s x hx])
    rw [← heq]
  · intro hdx
    have hxm : (cmapOf s).getD x default ∈ cmapOf s := getD_mem hx default
    have : ((cmapOf s).getD x default).1 = d := hdx.symm
    have hmem2 : (d, x) ∈ cmapOf s := by
      have hpair : (cmapOf s).getD x default = (d, x) := by
        have h2 := cmap_getD_snd s x hx
        exact Prod.ext this h2
      rw [← hpair]
      exact hxm
    exact cmapGet_of_mem (cmap_fst_nodup s hid) hmem2

theorem weightSum_eq_dictGet (d : WDict) (hnd : (d.map Prod.fst).Nodup) (x : ℕ) :
    ((d.filter (fun e => e.1 = x)).map (fun e => e.2)).sum = (dictGet d x).getD 0 := by
  induction d with
  | nil => rfl
  | cons e t ih =>
    rw [List.map_cons] at hnd
    obtain ⟨he, ht⟩ := List.nodup_cons.mp hnd
    by_cases hex : e.1 = x
    · have hnone : t.filter (fun e2 => e2.1 = x) = [] := by
        refine List.filter_eq_nil.mpr ?_
        intro q hq hqx
        exact he (by
          rw [hex, ← of_decide_eq_true hqx]
          exact List.mem_map.mpr ⟨q, hq, rfl⟩)
      rw [List.filter_cons_of_pos (by simp [hex]), List.map_cons, List.sum_cons, hnone,
        dictGet, show e = (e.1, e.2) from rfl, if_pos hex]
      show e.2 + 0 = e.2
      ring
    · rw [List.filter_cons_of_neg (by simp [hex]), ih ht,
        dictGet, show e = (e.1, e.2) from rfl, if_neg hex]

theorem filter_filter_sum_ne (d : WDict) (u x : ℕ) (hxu : x ≠ u) :
    (((d.filter (fun e => e.1 ≠ u)).filter (fun e => e.1 = x)).map (fun e => e.2)).sum
      = ((d.filter (fun e => e.1 = x)).map (fun e => e.2)).sum := by
  induction d with
  | nil => rfl
  | cons e t ih =>
    by_cases hex : e.1 = x
    · have heu : ¬ e.1 = u := fun h => hxu (by rw [← hex]; exact h)
      rw [List.filter_cons_of_pos (by simp [heu]), List.filter_cons_of_pos (by simp [hex]),
        List.filter_cons_of_pos (by simp [hex]), List.map_cons, List.map_cons, List.sum_cons,
        List.sum_cons, ih]
    · by_cases heu : e.1 = u
      · rw [List.filter_cons_of_neg (by simp [heu]), List.filter_cons_of_neg (by simp [hex]), ih]
      · rw [List.filter_cons_of_pos (by simp [heu]), List.filter_cons_of_neg (by simp [hex]),
          List.filter_cons_of_neg (by simp [hex]), ih]

theorem sum_map_filter_flatMap (l : List ℕ) (f : ℕ → List (ℕ × ℚ)) (P : (ℕ × ℚ) → Bool) :
    (((l.flatMap f).filter P).map (fun e => e.2)).sum
      = (l.map (fun a => (((f a).filter P).map (fun e => e.2)).sum)).sum := by
  induction l with
  | nil => rfl
  | cons a t ih =>
    rw [List.flatMap_cons, List.filter_append, List.map_append, List.sum_append, ih,
      List.map_cons, List.sum_cons]

theorem efc_filter_sum (es : List (ℕ × ℚ)) (key : (ℕ × ℚ) → ℕ) (x : ℕ) :
    (((es.map (fun p => (key p, p.2))).filter (fun e => e.1 = x)).map (fun e => e.2)).sum
      = ((es.filter (fun p => key p = x)).map (fun p => p.2)).sum := by
  induction es with
  | nil => rfl
  | cons p t ih =>
    rw [List.map_cons]
    by_cases h : key p = x
    · rw [List.filter_cons_of_pos (by simp [h]), List.filter_cons_of_pos (by simp [h]),
        List.map_cons, List.map_cons, List.sum_cons, List.sum_cons, ih]
    · rw [List.filter_cons_of_neg (by simp [h]), List.filter_cons_of_neg (by simp [h]), ih]

theorem if_sum_push (N : ℕ) (P Q : ℕ → Prop) [DecidablePred P] [DecidablePred Q]
    (w : ℕ → ℕ → ℚ) :
    (∑ a ∈ Finset.range N, if P a then (∑ b ∈ Finset.range N, if Q b then w a b else 0) else 0)
      = ∑ a ∈ Finset.range N, ∑ b ∈ Finset.range N, if P a ∧ Q b then w a b else 0 := by
  refine Finset.sum_congr rfl ?_
  intro a _
  by_cases hP : P a
  · rw [if_pos hP]
    refine Finset.sum_congr rfl ?_
    intro b _
    by_cases hQ : Q b
    · rw [if_pos hQ, if_pos ⟨hP, hQ⟩]
    · rw [if_neg hQ, if_neg (fun h => hQ h.2)]
  · rw [if_neg hP]
    symm
    refine Finset.sum_eq_zero ?_
    intro b _
    rw [if_neg (fun h => hP h.1)]

theorem double_sum_symm (N : ℕ) (w : ℕ → ℕ → ℚ)
    (hw : ∀ a b, a < N → b < N → w a b = w b a) (P Q : ℕ → Prop)
    [DecidablePred P] [DecidablePred Q] :
    (∑ a ∈ Finset.range N, ∑ b ∈ Finset.range N, if P a ∧ Q b then w a b else 0)
      = ∑ a ∈ Finset.range N, ∑ b ∈ Finset.range N, if Q a ∧ P b then w a b else 0 := by
  rw [Finset.sum_comm]
  refine Finset.sum_congr rfl ?_
  intro a ha
  refine Finset.sum_congr rfl ?_
  intro b hb
  by_cases h1 : Q a ∧ P b
  · rw [if_pos ⟨h1.2, h1.1⟩, if_pos h1]
    exact hw b a (Finset.mem_range.mp hb) (Finset.mem_range.mp ha)
  · rw [if_neg (fun h => h1 ⟨h.2, h.1⟩), if_neg h1]

theorem sharedSum_eq_group (s : Structure) (a : ℕ)
    (hl : ∀ p ∈ s.edges.getD a [], p.1 < nN s) (e : ℕ) :
    sharedSum s a e = ∑ b ∈ Finset.range (nN s),
      if commOf s b = e then edgeWeightTo s a b else 0 := by
  have h2 : sharedSum s a e = ∑ b ∈ Finset.range (nN s),
      if decide (commOf s b = e) then edgeWeightTo s a b else 0 :=
    sum_filter_pairs_group (s.edges.getD a []) (nN s) hl (fun b => decide (commOf s b = e))
  rw [h2]
  refine Finset.sum_congr rfl ?_
  intro b _
  by_cases hb : commOf s b = e
  · rw [if_pos (by simp [hb]), if_pos hb]
  · rw [if_neg (by simp [hb]), if_neg hb]

theorem efcPairs_valid (s : Structure)
    (hid : ∀ c, c < nK s → (commAt s c).id = c)
    (hcomm : ∀ u, u < nN s → commOf s u < nK s)
    (hedge : ∀ u, u < nN s → ∀ p ∈ s.edges.getD u [], p.1 < nN s ∧ p.1 ≠ u ∧ 0 < p.2)
    (hmem1 : ∀ c, c < nK s → ∀ u ∈ (commAt s c).nodes, u < nN s ∧ commOf s u = c)
    (hmem2 : ∀ c, c < nK s → ∀ u, u < nN s → commOf s u = c → u ∈ (commAt s c).nodes)
    (cid : ℕ) (hcid : cid < nK s) :
    ∀ e ∈ efcPairs s (cmapOf s) cid, e.1 < (cmapOf s).length ∧ 0 < e.2 := by
  intro e he
  obtain ⟨node, hnode, he2⟩ := List.mem_flatMap.mp he
  obtain ⟨p, hp, hpe⟩ := List.mem_map.mp he2
  obtain ⟨hnlt, _⟩ := hmem1 cid hcid node hnode
  obtain ⟨hplt, _, hppos⟩ := hedge node hnlt p hp
  have hpc : commOf s p.1 < nK s := hcomm p.1 hplt
  have hpmem : p.1 ∈ (commAt s (commOf s p.1)).nodes := hmem2 _ hpc p.1 hplt rfl
  have hpne : 0 < (commAt s (commOf s p.1)).nodes.length := List.length_pos_of_mem hpmem
  obtain ⟨_, hlt⟩ := cmap_exists s hid (commOf s p.1) hpc hpne
  rw [← hpe]
  exact ⟨hlt, hppos⟩

theorem efc_weight_sum (s : Structure) (cmap : List (ℕ × ℕ)) (cid x : ℕ) :
    (((edgesForCommunity s cmap cid).filter (fun e => e.1 = x)).map (fun e => e.2)).sum
      = (((efcPairs s cmap cid).filter (fun e => e.1 = x)).map (fun e => e.2)).sum := by
  rw [weightSum_eq_dictGet (edgesForCommunity s cmap cid)
    (keys_nodup_foldl_dictAdd (efcPairs s cmap cid) [] (by simp)) x, edgesForCommunity,
    dictGet_foldl_dictAdd]
  by_cases h : (efcPairs s cmap cid).filter (fun e => e.1 = x) = []
  · rw [if_pos h, h]
    rfl
  · rw [if_neg h]
    show (0 : ℚ) + _ = _
    rw [zero_add]

theorem efc_mem (s : Structure)
    (hid : ∀ c, c < nK s → (commAt s c).id = c)
    (hcomm : ∀ u, u < nN s → commOf s u < nK s)
    (hedge : ∀ u, u < nN s → ∀ p ∈ s.edges.getD u [], p.1 < nN s ∧ p.1 ≠ u ∧ 0 < p.2)
    (hmem1 : ∀ c, c < nK s → ∀ u ∈ (commAt s c).nodes, u < nN s ∧ commOf s u = c)
    (hmem2 : ∀ c, c < nK s → ∀ u, u < nN s → commOf s u = c → u ∈ (commAt s c).nodes)
    (cid : ℕ) (hcid : cid < nK s) :
    ∀ e ∈ edgesForCommunity s (cmapOf s) cid, e.1 < (cmapOf s).length ∧ 0 < e.2 := by
  intro e he
  have hvalid := efcPairs_valid s hid hcomm hedge hmem1 hmem2 cid hcid
  have hkey : e.1 < (cmapOf s).length := by
    rcases keys_foldl_dictAdd _ [] e he with h | h
    · exact absurd h (by simp)
    · obtain ⟨q, hq, hfst⟩ := List.mem_map.mp h
      rw [← hfst]
      exact (hvalid q hq).1
  refine ⟨hkey, ?_⟩
  have hget : dictGet (edgesForCommunity s (cmapOf s) cid) e.1 = some e.2 :=
    dictGet_eq_some_of_mem (keys_nodup_foldl_dictAdd _ [] (by simp)) he
  rw [edgesForCommunity, dictGet_foldl_dictAdd] at hget
  by_cases hnil : (efcPairs s (cmapOf s) cid).filter (fun q => q.1 = e.1) = []
  · rw [if_pos hnil] at hget
    exact absurd hget (by simp [dictGet])
  · rw [if_neg hnil] at hget
    have he2 : e.2 = (dictGet [] e.1).getD 0
        + (((efcPairs s (cmapOf s) cid).filter (fun q => q.1 = e.1)).map (fun q => q.2)).sum :=
      (Option.some_injective _ hget).symm
    have hpos : 0 < (((efcPairs s (cmapOf s) cid).filter (fun q => q.1 = e.1)).map
        (fun q => q.2)).sum := by
      refine (filtered_sum_pos_iff _ _ ?_).mpr hnil
      intro q hq
      exact (hvalid q hq).2
    rw [he2]
    show 0 < (0 : ℚ) + _
    rw [zero_add]
    exact hpos

theorem efcKeySum (s : Structure)
    (hid : ∀ c, c < nK s → (commAt s c).id = c)
    (hcomm : ∀ u, u < nN s → commOf s u < nK s)
    (hedge : ∀ u, u < nN s → ∀ p ∈ s.edges.getD u [], p.1 < nN s ∧ p.1 ≠ u ∧ 0 < p.2)
    (hnodup : ∀ c, c < nK s → (commAt s c).nodes.Nodup)
    (hmem1 : ∀ c, c < nK s → ∀ u ∈ (commAt s c).nodes, u < nN s ∧ commOf s u = c)
    (hmem2 : ∀ c, c < nK s → ∀ u, u < nN s → commOf s u = c → u ∈ (commAt s c).nodes)
    (cid : ℕ) (hcid : cid < nK s) (x : ℕ) (hx : x < (cmapOf s).length) :
    (((efcPairs s (cmapOf s) cid).filter (fun e => e.1 = x)).map (fun e => e.2)).sum
      = ∑ a ∈ Finset.range (nN s), if commOf s a = cid
          then sharedSum s a (((cmapOf s).getD x default).1) else 0 := by
  have he : efcPairs s (cmapOf s) cid
      = (s.communities.getD cid default).nodes.flatMap (fun node =>
          (s.edges.getD node []).map
            (fun p => (cmapGet (cmapOf s) (commOf s p.1), p.2))) := rfl
  have h1 : ((((s.communities.getD cid default).nodes.flatMap (fun node =>
          (s.edges.getD node []).map
            (fun p => (cmapGet (cmapOf s) (commOf s p.1), p.2)))).filter
          (fun e => e.1 = x)).map (fun e => e.2)).sum
      = ((s.communities.getD cid default).nodes.map (fun a =>
          ((((s.edges.getD a []).map
              (fun p => (cmapGet (cmapOf s) (commOf s p.1), p.2))).filter
            (fun e => e.1 = x)).map (fun e => e.2)).sum)).sum :=
    sum_map_filter_flatMap (s.communities.getD cid default).nodes
      (fun node => (s.edges.getD node []).map
        (fun p => (cmapGet (cmapOf s) (commOf s p.1), p.2)))
      (fun e => decide (e.1 = x))
  rw [he, h1]
  have h2 : ∀ a ∈ (s.communities.getD cid default).nodes,
      ((((s.edges.getD a []).map
          (fun p => (cmapGet (cmapOf s) (commOf s p.1), p.2))).filter
        (fun e => e.1 = x)).map (fun e => e.2)).sum
      = sharedSum s a (((cmapOf s).getD x default).1) := by
    intro a hamem
    obtain ⟨halt, _⟩ := hmem1 cid hcid a hamem
    rw [efc_filter_sum (s.edges.getD a []) (fun p => cmapGet (cmapOf s) (commOf s p.1)) x]
    have hfc : (s.edges.getD a []).filter
          (fun p => decide (cmapGet (cmapOf s) (commOf s p.1) = x))
        = (s.edges.getD a []).filter
          (fun p => decide (commOf s p.1 = ((cmapOf s).getD x default).1)) := by
      refine List.filter_congr ?_
      intro p hp
      rw [decide_eq_decide]
      obtain ⟨hplt, _, _⟩ := hedge a halt p hp
      have hpc : commOf s p.1 < nK s := hcomm p.1 hplt
      have hpne : 0 < (commAt s (commOf s p.1)).nodes.length :=
        List.length_pos_of_mem (hmem2 _ hpc p.1 hplt rfl)
      exact cmapGet_eq_iff s hid (commOf s p.1) hpc hpne x hx
    rw [hfc]
    rfl
  have h3 : (s.communities.getD cid default).nodes.map (fun a =>
        ((((s.edges.getD a []).map
            (fun p => (cmapGet (cmapOf s) (commOf s p.1), p.2))).filter
          (fun e => e.1 = x)).map (fun e => e.2)).sum)
      = (s.communities.getD cid default).nodes.map
          (fun a => sharedSum s a (((cmapOf s).getD x default).1)) :=
    List.map_congr_left h2
  rw [h3]
  exact nodesListSum (s.communities.getD cid default).nodes (hnodup cid hcid) (nN s)
    (fun u => commOf s u = cid)
    (fun u => ⟨fun hm => ⟨(hmem1 cid hcid u hm).1, (hmem1 cid hcid u hm).2⟩,
      fun hm => hmem2 cid hcid u hm.1 hm.2⟩)
    (fun a => sharedSum s a (((cmapOf s).getD x default).1))

theorem commAt_mergeBase (s : Structure) (c : ℕ) (hc : c < (cmapOf s).length) :
    commAt (mergeBase s) c
      = { id := c, nodes := [c],
          total_degree :=
            (s.communities.getD ((cmapOf s).getD c default).1 default).total_degree } := by
  have h : commAt (mergeBase s) c
      = { id := ((cmapOf s).getD c default).2,
          nodes := [((cmapOf s).getD c default).2],
          total_degree :=
            (s.communities.getD ((cmapOf s).getD c default).1 default).total_degree } :=
    getD_map_lt (cmapOf s) _ c hc default default
  rw [h, cmap_getD_snd s c hc]

theorem edges_mergeBase (s : Structure) (u : ℕ) (hu : u < (cmapOf s).length) :
    (mergeBase s).edges.getD u []
      = (edgesForCommunity s (cmapOf s) ((cmapOf s).getD u default).1).filter
          (fun e => e.1 ≠ u) := by
  have h : (mergeBase s).edges.getD u []
      = (edgesForCommunity s (cmapOf s) ((cmapOf s).getD u default).1).filter
          (fun e => e.1 ≠ ((cmapOf s).getD u default).2) :=
    getD_map_lt (cmapOf s) _ u hu [] default
  rw [h, cmap_getD_snd s u hu]

theorem edgeWeightTo_mergeBase (s : Structure)
    (hid : ∀ c, c < nK s → (commAt s c).id = c)
    (hcomm : ∀ u, u < nN s → commOf s u < nK s)
    (hedge : ∀ u, u < nN s → ∀ p ∈ s.edges.getD u [], p.1 < nN s ∧ p.1 ≠ u ∧ 0 < p.2)
    (hnodup : ∀ c, c < nK s → (commAt s c).nodes.Nodup)
    (hmem1 : ∀ c, c < nK s → ∀ u ∈ (commAt s c).nodes, u < nN s ∧ commOf s u = c)
    (hmem2 : ∀ c, c < nK s → ∀ u, u < nN s → commOf s u = c → u ∈ (commAt s c).nodes)
    (u x : ℕ) (hu : u < (cmapOf s).length) (hx : x < (cmapOf s).length) (hxu : x ≠ u) :
    edgeWeightTo (mergeBase s) u x
      = ∑ a ∈ Finset.range (nN s), ∑ b ∈ Finset.range (nN s),
          if (commOf s a = ((cmapOf s).getD u default).1
              ∧ commOf s b = ((cmapOf s).getD x default).1)
          then edgeWeightTo s a b else 0 := by
  have horigu := cmap_mem_fst s hid _ (getD_mem hu default)
  rw [edgeWeightTo, edges_mergeBase s u hu,
    filter_filter_sum_ne _ u x hxu, efc_weight_sum,
    efcKeySum s hid hcomm hedge hnodup hmem1 hmem2 _ horigu.1 x hx]
  have h4 : ∀ a ∈ Finset.range (nN s),
      (if commOf s a = ((cmapOf s).getD u default).1
        then sharedSum s a (((cmapOf s).getD x default).1) else 0)
      = (if commOf s a = ((cmapOf s).getD u default).1
        then (∑ b ∈ Finset.range (nN s),
          if commOf s b = ((cmapOf s).getD x default).1 then edgeWeightTo s a b else 0)
        else 0) := by
    intro a ha
    by_cases hca : commOf s a = ((cmapOf s).getD u default).1
    · rw [if_pos hca, if_pos hca,
        sharedSum_eq_group s a (fun p hp => (hedge a (Finset.mem_range.mp ha) p hp).1)]
    · rw [if_neg hca, if_neg hca]
  rw [Finset.sum_congr rfl h4]
  exact if_sum_push (nN s) (fun a => commOf s a = ((cmapOf s).getD u default).1)
    (fun b => commOf s b = ((cmapOf s).getD x default).1) (edgeWeightTo s)

theorem wf_merge_nodes (s : Structure) (hW : WF s) : WF (merge_nodes s) := by
  obtain ⟨hLdeg, hLsr, hLe, hLncw, hcomm, hedge, hsym, hid, hnodup, hmem1, hmem2, htot,
    hdeg, hkeys, hncw⟩ := hW
  rw [merge_nodes_eq_init]
  have hKm : (mergeBase s).communities.length = (cmapOf s).length := List.length_map _ _
  refine wf_init_caches (mergeBase s) (cmapOf s).length ?_ ?_ ?_ ?_ ?_ ?_ ?_ ?_ ?_ ?_
  · exact List.length_range _
  · exact List.length_map _ _
  · exact List.length_map _ _
  · intro u hu
    show (List.range (cmapOf s).length).getD u 0 < ((cmapOf s).map _).length
    rw [getD_range_lt hu, List.length_map]
    exact hu
  · intro c hc
    rw [hKm] at hc
    rw [commAt_mergeBase s c hc]
  · intro c hc
    rw [hKm] at hc
    rw [commAt_mergeBase s c hc]
    exact List.nodup_singleton _
  · intro c hc u hu
    rw [hKm] at hc
    rw [commAt_mergeBase s c hc] at hu
    obtain rfl := List.mem_singleton.mp hu
    refine ⟨hc, ?_⟩
    show (List.range (cmapOf s).length).getD u 0 = u
    exact getD_range_lt hc
  · intro c hc u hu hcu
    rw [hKm] at hc
    rw [commAt_mergeBase s c hc]
    have hu2 : (List.range (cmapOf s).length).getD u 0 = u := getD_range_lt hu
    rw [show commOf (mergeBase s) u = (List.range (cmapOf s).length).getD u 0 from rfl, hu2]
      at hcu
    exact List.mem_singleton.mpr hcu
  · intro u hu p hp
    rw [edges_mergeBase s u hu] at hp
    obtain ⟨hpm, hpne⟩ := List.mem_filter.mp hp
    have horigu := cmap_mem_fst s hid _ (getD_mem hu default)
    obtain ⟨hk, hw⟩ := efc_mem s hid hcomm hedge hmem1 hmem2 _ horigu.1 p hpm
    exact ⟨hk, of_decide_eq_true hpne, hw⟩
  · intro u hu x hx
    by_cases hxu : x = u
    · subst hxu
      rfl
    · rw [edgeWeightTo_mergeBase s hid hcomm hedge hnodup hmem1 hmem2 u x hu hx hxu,
        edgeWeightTo_mergeBase s hid hcomm hedge hnodup hmem1 hmem2 x u hx hu
          (fun h => hxu h.symm)]
      exact double_sum_symm (nN s) (edgeWeightTo s)
        (fun a b ha hb => hsym a ha b hb)
        (fun a => commOf s a = ((cmapOf s).getD u default).1)
        (fun b => commOf s b = ((cmapOf s).getD x default).1)

theorem reachable_wf (s : Structure) (h : Reachable s) : WF s := by
  induction h with
  | init n es hv => exact wf_mkStructure n es hv
  | move s v c _ hv hc hne ih => exact wf_moveNodeTo s ih v c hv hc hne
  | merge s _ ih => exact wf_merge_nodes s ih

/-- Witness for C8 at a concrete input: three nodes, no edges, resolution 1,
fuel 1: the driver returns the unchanged state, the origin partition is
`[0, 1, 2]`, and the modularity is `0`. -/
theorem louvain_degenerate_trivial_witness :
    (1 : ℕ) ≤ 1 ∧ (((3 : ℕ) = 0) ∨ (([] : List (ℕ × ℕ)) = [])) ∧
    (louvain (mkStructure 3 []) 1 false (fun _ n => List.range n) 1
        = .ok (mkStructure 3 []) ∧
      (mkStructure 3 []).origin_nodes_community = List.range 3 ∧
      compute_modularity (mkStructure 3 []) 1 = 0) :=
  ⟨le_refl 1, Or.inr rfl,
    louvain_degenerate_trivial 3 [] 1 false (fun _ n => List.range n) 1
      (le_refl 1) (Or.inr rfl)⟩

/-- C7: in every reachable state the sparse `NodeCommunityWeights` cache is
exact — for every node `v` and community `c` it stores an entry for `c`
if and only if the total edge weight from `v` into the nodes currently in
`c` is strictly positive, the stored value is then exactly that sum, and
the lookup agrees entrywise with a from-scratch
`node_communities_compute` rebuild. -/
theorem ncw_cache_exact (s : Structure) (hs : Reachable s) (v c : ℕ)
    (hv : v < nN s) (hc : c < nK s) :
    dictGet (s.node_communities_weights.getD v []) c
        = (if 0 < sharedSum s v c then some (sharedSum s v c) else none)
      ∧ dictGet (s.node_communities_weights.getD v []) c
        = dictGet (node_communities_compute s v) c := by
  obtain ⟨_, _, _, _, _, hedge, _, _, _, _, _, _, _, _, hncw⟩ := reachable_wf s hs
  have h1 := hncw v hv c hc
  refine ⟨h1, ?_⟩
  rw [h1, dictGet_node_communities_compute s v (fun p hp => (hedge v hv p hp).2.2) c]

/-- Witness for C7 at a concrete input: the state reached from the
reference graph by moving node `1` into community `0`; node `2` and
community `0` (shared weight `1`, which the cache stores), and the
from-scratch rebuild agrees. -/
theorem ncw_cache_exact_witness :
    (2 : ℕ) < nN (moveNodeTo (mkStructure 6 demoEdges) 1 0) ∧
    (0 : ℕ) < nK (moveNodeTo (mkStructure 6 demoEdges) 1 0) ∧
    (dictGet ((moveNodeTo (mkStructure 6 demoEdges) 1 0).node_communities_weights.getD 2 []) 0
        = (if 0 < sharedSum (moveNodeTo (mkStructure 6 demoEdges) 1 0) 2 0
           then some (sharedSum (moveNodeTo (mkStructure 6 demoEdges) 1 0) 2 0) else none)
      ∧ dictGet ((moveNodeTo (mkStructure 6 demoEdges) 1 0).node_communities_weights.getD 2 []) 0
        = dictGet (node_communities_compute (moveNodeTo (mkStructure 6 demoEdges) 1 0) 2) 0) :=
  ⟨by decide, by decide,
    ncw_cache_exact (moveNodeTo (mkStructure 6 demoEdges) 1 0)
      (Reachable.move (mkStructure 6 demoEdges) 1 0
        (Reachable.init 6 demoEdges (by decide)) (by decide) (by decide) (by decide))
      2 0 (by decide) (by decide)⟩

/-- C9 (amended): in every reachable state — including aggregated levels —
the cached degree of every node equals its stored self-reference weight
plus the sum of its incident (non-self) edge weights; the stored
self-reference already counts an aggregated community's internal edges
from both endpoints (it is `2.0` for the pair community of the reference
scenario), so no further doubling applies. -/
theorem degree_cache_formula (s : Structure) (hs : Reachable s) (v : ℕ) (hv : v < nN s) :
    degOf s v = srOf s v + incidentWeight s v := by
  obtain ⟨_, _, _, _, _, _, _, _, _, _, _, _, hdeg, _, _⟩ := reachable_wf s hs
  exact hdeg v hv

/-- Witness for C9 at a concrete input: the aggregated pair state (one
community node with stored self-reference `2`, no incident edges, degree
`2`). -/
theorem degree_cache_formula_witness :
    (0 : ℕ) < nN (merge_nodes (moveNodeTo (mkStructure 2 [(0, 1)]) 1 0)) ∧
    degOf (merge_nodes (moveNodeTo (mkStructure 2 [(0, 1)]) 1 0)) 0
      = srOf (merge_nodes (moveNodeTo (mkStructure 2 [(0, 1)]) 1 0)) 0
        + incidentWeight (merge_nodes (moveNodeTo (mkStructure 2 [(0, 1)]) 1 0)) 0 :=
  ⟨by decide,
    degree_cache_formula (merge_nodes (moveNodeTo (mkStructure 2 [(0, 1)]) 1 0))
      (Reachable.merge (moveNodeTo (mkStructure 2 [(0, 1)]) 1 0)
        (Reachable.move (mkStructure 2 [(0, 1)]) 1 0
          (Reachable.init 2 [(0, 1)] (by decide)) (by decide) (by decide) (by decide)))
      0 (by decide)⟩

theorem commOf_moveNodeTo_self (s : Structure) (v b : ℕ) (hv : v < nN s) :
    commOf (moveNodeTo s v b) v = b := getD_set_self hv b 0

theorem commOf_moveNodeTo_other (s : Structure) (v b u : ℕ) (huv : u ≠ v) :
    commOf (moveNodeTo s v b) u = commOf s u := getD_set_ne (fun h => huv h.symm) b 0

theorem nN_moveNodeTo (s : Structure) (v b : ℕ) : nN (moveNodeTo s v b) = nN s :=
  List.length_set _ _ _

theorem nK_moveNodeTo (s : Structure) (v b : ℕ) : nK (moveNodeTo s v b) = nK s := by
  show (listModify (listModify s.communities (commOf s v) _) b _).length = _
  rw [listModify_length, listModify_length]
  rfl

theorem edgeWeightTo_self_zero (s : Structure) (v : ℕ)
    (hself : ∀ p ∈ s.edges.getD v [], p.1 ≠ v) : edgeWeightTo s v v = 0 := by
  rw [edgeWeightTo]
  have h : (s.edges.getD v []).filter (fun p => decide (p.1 = v)) = [] := by
    refine List.filter_eq_nil.mpr ?_
    intro p hp
    simp [hself p hp]
  rw [h]
  rfl

theorem sharedSum_moveNodeTo_target (s : Structure) (v b : ℕ) (hv : v < nN s)
    (hne : b ≠ commOf s v) (u : ℕ) :
    u ≠ v → sharedSum (moveNodeTo s v b) u b = sharedSum s u b + edgeWeightTo s u v := by
  intro huv
  have hcommv : commOf (moveNodeTo s v b) v = b := commOf_moveNodeTo_self s v b hv
  have hfcA : (s.edges.getD u []).filter
        (fun p => decide (commOf (moveNodeTo s v b) p.1 = b) && decide (p.1 = v))
      = (s.edges.getD u []).filter (fun p => decide (p.1 = v)) := by
    refine List.filter_congr ?_
    intro p hp
    by_cases hpv : p.1 = v
    · simp [hpv, hcommv]
    · simp [hpv]
  have hfcB : (s.edges.getD u []).filter
        (fun p => decide (commOf (moveNodeTo s v b) p.1 = b) && !(decide (p.1 = v)))
      = (s.edges.getD u []).filter (fun p => decide (commOf s p.1 = b)) := by
    refine List.filter_congr ?_
    intro p hp
    by_cases hpv : p.1 = v
    · have hnc : ¬ (commOf s v = b) := fun h => hne h.symm
      simp [hpv, hcommv, hnc]
    · rw [commOf_moveNodeTo_other s v b p.1 hpv]
      simp [hpv]
  have hsp : sharedSum (moveNodeTo s v b) u b
      = (((s.edges.getD u []).filter
          (fun p => decide (commOf (moveNodeTo s v b) p.1 = b) && decide (p.1 = v))).map
          (fun p => p.2)).sum
        + (((s.edges.getD u []).filter
          (fun p => decide (commOf (moveNodeTo s v b) p.1 = b)
            && !(decide (p.1 = v)))).map (fun p => p.2)).sum := by
    show ((((moveNodeTo s v b).edges.getD u []).filter
        (fun p => decide (commOf (moveNodeTo s v b) p.1 = b))).map (fun p => p.2)).sum = _
    rw [show (moveNodeTo s v b).edges = s.edges from rfl]
    exact sum_filter_split (s.edges.getD u [])
      (fun p => decide (commOf (moveNodeTo s v b) p.1 = b)) (fun p => decide (p.1 = v))
  rw [hsp, hfcA, hfcB]
  show edgeWeightTo s u v + sharedSum s u b = _
  ring

theorem sharedSum_moveNodeTo_old (s : Structure) (v b : ℕ) (hv : v < nN s)
    (hne : b ≠ commOf s v) (u : ℕ) :
    u ≠ v → sharedSum (moveNodeTo s v b) u (commOf s v)
      = sharedSum s u (commOf s v) - edgeWeightTo s u v := by
  intro huv
  have hcommv : commOf (moveNodeTo s v b) v = b := commOf_moveNodeTo_self s v b hv
  have hfeq : (s.edges.getD u []).filter
        (fun p => decide (commOf (moveNodeTo s v b) p.1 = commOf s v))
      = (s.edges.getD u []).filter
        (fun p => decide (commOf s p.1 = commOf s v) && !(decide (p.1 = v))) := by
    refine List.filter_congr ?_
    intro p hp
    by_cases hpv : p.1 = v
    · simp [hpv, hcommv, hne]
    · rw [commOf_moveNodeTo_other s v b p.1 hpv]
      simp [hpv]
  have hf1 : (s.edges.getD u []).filter
        (fun p => decide (commOf s p.1 = commOf s v) && decide (p.1 = v))
      = (s.edges.getD u []).filter (fun p => decide (p.1 = v)) := by
    refine List.filter_congr ?_
    intro p hp
    by_cases hpv : p.1 = v
    · simp [hpv]
    · simp [hpv]
  have h1 : sharedSum (moveNodeTo s v b) u (commOf s v)
      = (((s.edges.getD u []).filter
          (fun p => decide (commOf s p.1 = commOf s v) && !(decide (p.1 = v)))).map
          (fun p => p.2)).sum := by
    show ((((moveNodeTo s v b).edges.getD u []).filter
        (fun p => decide (commOf (moveNodeTo s v b) p.1 = commOf s v))).map
        (fun p => p.2)).sum = _
    rw [show (moveNodeTo s v b).edges = s.edges from rfl, hfeq]
  have h2 : sharedSum s u (commOf s v)
      = edgeWeightTo s u v
        + (((s.edges.getD u []).filter
          (fun p => decide (commOf s p.1 = commOf s v) && !(decide (p.1 = v)))).map
          (fun p => p.2)).sum := by
    have hsp : sharedSum s u (commOf s v)
        = (((s.edges.getD u []).filter
            (fun p => decide (commOf s p.1 = commOf s v) && decide (p.1 = v))).map
            (fun p => p.2)).sum
          + (((s.edges.getD u []).filter
            (fun p => decide (commOf s p.1 = commOf s v) && !(decide (p.1 = v)))).map
            (fun p => p.2)).sum :=
      sum_filter_split (s.edges.getD u [])
        (fun p => decide (commOf s p.1 = commOf s v)) (fun p => decide (p.1 = v))
    rw [hsp, hf1]
    rfl
  rw [h1, h2]
  ring

theorem sharedSum_moveNodeTo_other (s : Structure) (v b : ℕ) (hv : v < nN s)
    (u cc : ℕ) (h1 : cc ≠ commOf s v) (h2 : cc ≠ b) :
    sharedSum (moveNodeTo s v b) u cc = sharedSum s u cc := by
  have hcommv : commOf (moveNodeTo s v b) v = b := commOf_moveNodeTo_self s v b hv
  have hfother : (s.edges.getD u []).filter
        (fun p => decide (commOf (moveNodeTo s v b) p.1 = cc))
      = (s.edges.getD u []).filter (fun p => decide (commOf s p.1 = cc)) := by
    refine List.filter_congr ?_
    intro p hp
    by_cases hpv : p.1 = v
    · have hx1 : ¬ (b = cc) := fun h => h2 h.symm
      have hx2 : ¬ (commOf s v = cc) := fun h => h1 h.symm
      simp [hpv, hcommv, hx1, hx2]
    · rw [commOf_moveNodeTo_other s v b p.1 hpv]
  show ((((moveNodeTo s v b).edges.getD u []).filter
      (fun p => decide (commOf (moveNodeTo s v b) p.1 = cc))).map (fun p => p.2)).sum = _
  rw [show (moveNodeTo s v b).edges = s.edges from rfl, hfother]
  rfl

theorem sharedSum_moveNodeTo_self (s : Structure) (v b : ℕ)
    (hself : ∀ p ∈ s.edges.getD v [], p.1 ≠ v) (cc : ℕ) :
    sharedSum (moveNodeTo s v b) v cc = sharedSum s v cc := by
  have hfeq : (s.edges.getD v []).filter
        (fun p => decide (commOf (moveNodeTo s v b) p.1 = cc))
      = (s.edges.getD v []).filter (fun p => decide (commOf s p.1 = cc)) := by
    refine List.filter_congr ?_
    intro p hp
    rw [commOf_moveNodeTo_other s v b p.1 (hself p hp)]
  show ((((moveNodeTo s v b).edges.getD v []).filter
      (fun p => decide (commOf (moveNodeTo s v b) p.1 = cc))).map (fun p => p.2)).sum = _
  rw [show (moveNodeTo s v b).edges = s.edges from rfl, hfeq]
  rfl

theorem q_of_m_zero (s : Structure) (hmz : s.m = 0) (v c : ℕ) (sd r : ℚ) :
    q s v c sd r = 0 := by
  simp [q, hmz]

theorem modularityTerm_eq (s : Structure) (r h : ℚ) (c : ℕ) :
    modularityTerm s r h c
      = ((∑ u ∈ Finset.range (nN s), if commOf s u = c
            then sharedSum s u c + srOf s u else 0) / 2) / h
        - r * ((∑ u ∈ Finset.range (nN s), if commOf s u = c then degOf s u else 0)
            / (2 * h)) ^ 2 := by
  have hIW : ((((List.range s.node_community.length).filter
        (fun u => decide (commOf s u = c))).map (fun u =>
          (((s.edges.getD u []).filter (fun p => commOf s p.1 = commOf s u)).map
            (fun p => p.2)).sum + s.node_selfreference.getD u 0)).sum)
      = ∑ u ∈ Finset.range (nN s), if commOf s u = c
          then sharedSum s u c + srOf s u else 0 := by
    rw [listFilterSum, listRangeSum]
    refine Finset.sum_congr rfl ?_
    intro u _
    by_cases hu : commOf s u = c
    · rw [if_pos (by simp [hu]), if_pos hu]
      show sharedSum s u (commOf s u) + srOf s u = sharedSum s u c + srOf s u
      rw [hu]
    · rw [if_neg (by simp [hu]), if_neg hu]
  have hTD : ((((List.range s.node_community.length).filter
        (fun u => decide (commOf s u = c))).map
        (fun u => s.node_degrees.getD u 0)).sum)
      = ∑ u ∈ Finset.range (nN s), if commOf s u = c then degOf s u else 0 := by
    rw [listFilterSum, listRangeSum]
    refine Finset.sum_congr rfl ?_
    intro u _
    by_cases hu : commOf s u = c
    · rw [if_pos (by simp [hu]), if_pos hu]
      rfl
    · rw [if_neg (by simp [hu]), if_neg hu]
  show ((((List.range s.node_community.length).filter
        (fun u => decide (commOf s u = c))).map (fun u =>
          (((s.edges.getD u []).filter (fun p => commOf s p.1 = commOf s u)).map
            (fun p => p.2)).sum + s.node_selfreference.getD u 0)).sum) / 2 / h
      - r * (((((List.range s.node_community.length).filter
          (fun u => decide (commOf s u = c))).map
          (fun u => s.node_degrees.getD u 0)).sum) / (2 * h)) ^ 2 = _
  rw [hIW, hTD]

theorem compute_modularity_eq_range (s : Structure)
    (hcomm : ∀ u, u < nN s → commOf s u < nK s) (r : ℚ) (hm : ¬ s.m * (1/2) = 0) :
    compute_modularity s r
      = ∑ c ∈ Finset.range (nK s), modularityTerm s r (s.m * (1/2)) c := by
  show (if s.m * (1/2) = 0 then 0
    else (s.node_community.dedup.map (modularityTerm s r (s.m * (1/2)))).sum) = _
  rw [if_neg hm, ← List.sum_toFinset _ (List.nodup_dedup _)]
  refine Finset.sum_subset ?_ ?_
  · intro c hcin
    have hcm : c ∈ s.node_community := List.mem_dedup.mp (List.mem_toFinset.mp hcin)
    obtain ⟨i, hget⟩ := List.mem_iff_get.mp hcm
    have hci : commOf s (i : ℕ) = c := by
      rw [commOf, List.getD_eq_getElem?_getD, List.getElem?_eq_getElem i.isLt,
        Option.getD_some, ← List.get_eq_getElem, hget]
    rw [Finset.mem_range, ← hci]
    exact hcomm i i.isLt
  · intro c hcin hcout
    have hmembers : (List.range s.node_community.length).filter
        (fun u => decide (commOf s u = c)) = [] := by
      refine List.filter_eq_nil.mpr ?_
      intro u hu
      intro hdec
      have hu2 : u < s.node_community.length := List.mem_range.mp hu
      have hcu : commOf s u = c := of_decide_eq_true hdec
      have hcm : c ∈ s.node_community := by
        rw [← hcu, commOf, List.getD_eq_getElem?_getD, List.getElem?_eq_getElem hu2,
          Option.getD_some]
        exact List.getElem_mem hu2
      exact hcout (List.mem_toFinset.mpr (List.mem_dedup.mpr hcm))
    show ((((List.range s.node_community.length).filter
          (fun u => decide (commOf s u = c))).map (fun u =>
            (((s.edges.getD u []).filter (fun p => commOf s p.1 = commOf s u)).map
              (fun p => p.2)).sum + s.node_selfreference.getD u 0)).sum) / 2 / (s.m * (1/2))
        - r * (((((List.range s.node_community.length).filter
            (fun u => decide (commOf s u = c))).map
            (fun u => s.node_degrees.getD u 0)).sum) / (2 * (s.m * (1/2)))) ^ 2 = 0
    rw [hmembers]
    show ((0 : ℚ) / 2 / (s.m * (1/2))) - r * ((0 / (2 * (s.m * (1/2)))) ^ 2) = 0
    norm_num

theorem Dsum_moveNodeTo_target (s : Structure) (v b : ℕ) (hv : v < nN s)
    (hne : b ≠ commOf s v) :
    (∑ u ∈ Finset.range (nN s), if commOf (moveNodeTo s v b) u = b
        then degOf (moveNodeTo s v b) u else 0)
      = (∑ u ∈ Finset.range (nN s), if commOf s u = b then degOf s u else 0)
        + degOf s v := by
  rw [sum_range_update (nN s) _ (fun u => if commOf s u = b then degOf s u else 0) v hv ?_]
  · rw [if_pos (commOf_moveNodeTo_self s v b hv), if_neg (fun h => hne h.symm),
      show degOf (moveNodeTo s v b) v = degOf s v from rfl]
    ring
  · intro u _ huv
    show (if commOf (moveNodeTo s v b) u = b then degOf (moveNodeTo s v b) u else 0)
      = (if commOf s u = b then degOf s u else 0)
    rw [commOf_moveNodeTo_other s v b u huv]
    rfl

theorem Dsum_moveNodeTo_old (s : Structure) (v b : ℕ) (hv : v < nN s)
    (hne : b ≠ commOf s v) :
    (∑ u ∈ Finset.range (nN s), if commOf (moveNodeTo s v b) u = commOf s v
        then degOf (moveNodeTo s v b) u else 0)
      = (∑ u ∈ Finset.range (nN s), if commOf s u = commOf s v then degOf s u else 0)
        - degOf s v := by
  rw [sum_range_update (nN s) _
    (fun u => if commOf s u = commOf s v then degOf s u else 0) v hv ?_]
  · rw [if_neg (show ¬ commOf (moveNodeTo s v b) v = commOf s v by
      rw [commOf_moveNodeTo_self s v b hv]; exact hne), if_pos rfl]
    ring
  · intro u _ huv
    show (if commOf (moveNodeTo s v b) u = commOf s v then degOf (moveNodeTo s v b) u else 0)
      = (if commOf s u = commOf s v then degOf s u else 0)
    rw [commOf_moveNodeTo_other s v b u huv]
    rfl

theorem Dsum_moveNodeTo_other (s : Structure) (v b : ℕ) (hv : v < nN s)
    (c : ℕ) (hca : c ≠ commOf s v) (hcb : c ≠ b) :
    (∑ u ∈ Finset.range (nN s), if commOf (moveNodeTo s v b) u = c
        then degOf (moveNodeTo s v b) u else 0)
      = ∑ u ∈ Finset.range (nN s), if commOf s u = c then degOf s u else 0 := by
  refine Finset.sum_congr rfl ?_
  intro u _
  by_cases huv : u = v
  · subst huv
    rw [if_neg (show ¬ commOf (moveNodeTo s u b) u = c by
        rw [commOf_moveNodeTo_self s u b hv]; exact fun h => hcb h.symm),
      if_neg (fun h => hca h.symm)]
  · rw [commOf_moveNodeTo_other s v b u huv]
    rfl

theorem Asum_moveNodeTo_target (s : Structure) (v b : ℕ) (hv : v < nN s)
    (hne : b ≠ commOf s v)
    (hself : ∀ p ∈ s.edges.getD v [], p.1 ≠ v)
    (hl : ∀ p ∈ s.edges.getD v [], p.1 < nN s)
    (hsym : ∀ u, u < nN s → ∀ x, x < nN s → edgeWeightTo s u x = edgeWeightTo s x u) :
    (∑ u ∈ Finset.range (nN s), if commOf (moveNodeTo s v b) u = b
        then sharedSum (moveNodeTo s v b) u b + srOf (moveNodeTo s v b) u else 0)
      = (∑ u ∈ Finset.range (nN s), if commOf s u = b
          then sharedSum s u b + srOf s u else 0)
        + (2 * sharedSum s v b + srOf s v) := by
  rw [sum_range_update (nN s) _
    (fun u => if commOf s u = b
      then (sharedSum s u b + edgeWeightTo s u v) + srOf s u else 0) v hv ?_]
  · rw [if_pos (commOf_moveNodeTo_self s v b hv), if_neg (fun h => hne h.symm),
      sharedSum_moveNodeTo_self s v b hself b,
      show srOf (moveNodeTo s v b) v = srOf s v from rfl]
    have hg : (∑ u ∈ Finset.range (nN s), if commOf s u = b
          then (sharedSum s u b + edgeWeightTo s u v) + srOf s u else 0)
        = (∑ u ∈ Finset.range (nN s), if commOf s u = b
            then sharedSum s u b + srOf s u else 0)
          + (∑ u ∈ Finset.range (nN s),
              if commOf s u = b then edgeWeightTo s u v else 0) := by
      rw [← Finset.sum_add_distrib]
      refine Finset.sum_congr rfl ?_
      intro u _
      by_cases hu : commOf s u = b
      · rw [if_pos hu, if_pos hu, if_pos hu]
        ring
      · rw [if_neg hu, if_neg hu, if_neg hu]
        ring
    have hw : (∑ u ∈ Finset.range (nN s), if commOf s u = b then edgeWeightTo s u v else 0)
        = sharedSum s v b := by
      rw [sharedSum_eq_group s v hl b]
      refine Finset.sum_congr rfl ?_
      intro u hu2
      by_cases hu : commOf s u = b
      · rw [if_pos hu, if_pos hu, hsym u (Finset.mem_range.mp hu2) v hv]
      · rw [if_neg hu, if_neg hu]
    rw [hg, hw]
    ring
  · intro u _ huv
    show (if commOf (moveNodeTo s v b) u = b
        then sharedSum (moveNodeTo s v b) u b + srOf (moveNodeTo s v b) u else 0)
      = (if commOf s u = b
        then (sharedSum s u b + edgeWeightTo s u v) + srOf s u else 0)
    rw [commOf_moveNodeTo_other s v b u huv,
      sharedSum_moveNodeTo_target s v b hv hne u huv,
      show srOf (moveNodeTo s v b) u = srOf s u from rfl]

theorem Asum_moveNodeTo_old (s : Structure) (v b : ℕ) (hv : v < nN s)
    (hne : b ≠ commOf s v)
    (hself : ∀ p ∈ s.edges.getD v [], p.1 ≠ v)
    (hl : ∀ p ∈ s.edges.getD v [], p.1 < nN s)
    (hsym : ∀ u, u < nN s → ∀ x, x < nN s → edgeWeightTo s u x = edgeWeightTo s x u) :
    (∑ u ∈ Finset.range (nN s), if commOf (moveNodeTo s v b) u = commOf s v
        then sharedSum (moveNodeTo s v b) u (commOf s v) + srOf (moveNodeTo s v b) u else 0)
      = (∑ u ∈ Finset.range (nN s), if commOf s u = commOf s v
          then sharedSum s u (commOf s v) + srOf s u else 0)
        - (2 * sharedSum s v (commOf s v) + srOf s v) := by
  rw [sum_range_update (nN s) _
    (fun u => if commOf s u = commOf s v
      then (sharedSum s u (commOf s v) - edgeWeightTo s u v) + srOf s u else 0) v hv ?_]
  · rw [if_neg (show ¬ commOf (moveNodeTo s v b) v = commOf s v by
        rw [commOf_moveNodeTo_self s v b hv]; exact hne), if_pos rfl,
      edgeWeightTo_self_zero s v hself]
    have hg : (∑ u ∈ Finset.range (nN s), if commOf s u = commOf s v
          then (sharedSum s u (commOf s v) - edgeWeightTo s u v) + srOf s u else 0)
        = (∑ u ∈ Finset.range (nN s), if commOf s u = commOf s v
            then sharedSum s u (commOf s v) + srOf s u else 0)
          - (∑ u ∈ Finset.range (nN s),
              if commOf s u = commOf s v then edgeWeightTo s u v else 0) := by
      rw [← Finset.sum_sub_distrib]
      refine Finset.sum_congr rfl ?_
      intro u _
      by_cases hu : commOf s u = commOf s v
      · rw [if_pos hu, if_pos hu, if_pos hu]
        ring
      · rw [if_neg hu, if_neg hu, if_neg hu]
        ring
    have hw : (∑ u ∈ Finset.range (nN s),
          if commOf s u = commOf s v then edgeWeightTo s u v else 0)
        = sharedSum s v (commOf s v) := by
      rw [sharedSum_eq_group s v hl (commOf s v)]
      refine Finset.sum_congr rfl ?_
      intro u hu2
      by_cases hu : commOf s u = commOf s v
      · rw [if_pos hu, if_pos hu, hsym u (Finset.mem_range.mp hu2) v hv]
      · rw [if_neg hu, if_neg hu]
    rw [hg, hw]
    ring
  · intro u _ huv
    show (if commOf (moveNodeTo s v b) u = commOf s v
        then sharedSum (moveNodeTo s v b) u (commOf s v) + srOf (moveNodeTo s v b) u else 0)
      = (if commOf s u = commOf s v
        then (sharedSum s u (commOf s v) - edgeWeightTo s u v) + srOf s u else 0)
    rw [commOf_moveNodeTo_other s v b u huv,
      sharedSum_moveNodeTo_old s v b hv hne u huv,
      show srOf (moveNodeTo s v b) u = srOf s u from rfl]

theorem Asum_moveNodeTo_other (s : Structure) (v b : ℕ) (hv : v < nN s)
    (c : ℕ) (hca : c ≠ commOf s v) (hcb : c ≠ b) :
    (∑ u ∈ Finset.range (nN s), if commOf (moveNodeTo s v b) u = c
        then sharedSum (moveNodeTo s v b) u c + srOf (moveNodeTo s v b) u else 0)
      = ∑ u ∈ Finset.range (nN s), if commOf s u = c
          then sharedSum s u c + srOf s u else 0 := by
  refine Finset.sum_congr rfl ?_
  intro u _
  by_cases huv : u = v
  · subst huv
    rw [if_neg (show ¬ commOf (moveNodeTo s u b) u = c by
        rw [commOf_moveNodeTo_self s u b hv]; exact fun h => hcb h.symm),
      if_neg (fun h => hca h.symm)]
  · rw [commOf_moveNodeTo_other s v b u huv,
      sharedSum_moveNodeTo_other s v b hv u c hca hcb,
      show srOf (moveNodeTo s v b) u = srOf s u from rfl]

/-- C1 (amended): for a valid move of node `v` into community `b` on a
well-formed state, at resolution `1.0` the from-scratch modularity after
the move equals the modularity before the move plus the predicted gain
`q(v, b, sharedDegree(v,b), 1)` **minus the stay term**
`q(v, currentCommunity(v), sharedDegree(v,currentCommunity(v)), 1)` — the
cost of detaching `v` from its current community, which the claim's
`Q_before + deltaQ(node, target)` formula omits; the identity is exact
(no `1e-9` tolerance is needed), and it holds in this form only for
resolution `1.0`, since `q` scales just the shared-degree term by the
resolution while `compute_modularity` scales the squared-degree term. -/
theorem modularity_delta_with_stay (s : Structure) (hW : WF s) (v b : ℕ)
    (hv : v < nN s) (hb : b < nK s) (hne : b ≠ commOf s v) :
    compute_modularity (moveNodeTo s v b) 1
      = compute_modularity s 1 + q s v b (sharedSum s v b) 1
        - q s v (commOf s v) (sharedSum s v (commOf s v)) 1 := by
  have hWt := wf_moveNodeTo s hW v b hv hb hne
  obtain ⟨hLdeg, hLsr, hLe, hLncw, hcomm, hedge, hsym, hid, hnodup, hmem1, hmem2, htot,
    hdeg, hkeys, hncw⟩ := hW
  have ha : commOf s v < nK s := hcomm v hv
  have hself : ∀ p ∈ s.edges.getD v [], p.1 ≠ v := fun p hp => (hedge v hv p hp).2.1
  have hl : ∀ p ∈ s.edges.getD v [], p.1 < nN s := fun p hp => (hedge v hv p hp).1
  by_cases hm : s.m * (1/2) = 0
  · have hmz : s.m = 0 := by
      rcases mul_eq_zero.mp hm with h | h
      · exact h
      · exact absurd h (by norm_num)
    have hczero : compute_modularity s 1 = 0 := by
      show (if s.m * (1/2) = 0 then (0 : ℚ) else _) = 0
      rw [if_pos hm]
    have hczero_t : compute_modularity (moveNodeTo s v b) 1 = 0 := by
      show (if (moveNodeTo s v b).m * (1/2) = 0 then (0 : ℚ) else _) = 0
      rw [if_pos (show (moveNodeTo s v b).m * (1/2) = 0 from hm)]
    rw [hczero, hczero_t, q_of_m_zero s hmz, q_of_m_zero s hmz]
    norm_num
  · have hm0 : s.m ≠ 0 := fun hz => hm (by rw [hz]; ring)
    obtain ⟨_, _, _, _, hcommt, _, _, _, _, _, _, _, _, _, _⟩ := hWt
    have hcm_t : compute_modularity (moveNodeTo s v b) 1
        = ∑ c ∈ Finset.range (nK s),
            modularityTerm (moveNodeTo s v b) 1 (s.m * (1/2)) c := by
      have h0 := compute_modularity_eq_range (moveNodeTo s v b) hcommt 1
        (show ¬ (moveNodeTo s v b).m * (1/2) = 0 from hm)
      rw [h0, nK_moveNodeTo, show (moveNodeTo s v b).m = s.m from rfl]
    have hcm_s : compute_modularity s 1
        = ∑ c ∈ Finset.range (nK s), modularityTerm s 1 (s.m * (1/2)) c :=
      compute_modularity_eq_range s hcomm 1 hm
    have hqb : q s v b (sharedSum s v b) 1
        = (1 * (sharedSum s v b * 2)
            - (degOf s v * (∑ u ∈ Finset.range (nN s),
                if commOf s u = b then degOf s u else 0)) / (s.m * (1/2))) / s.m := by
      simp only [q]
      rw [if_neg (fun h => hne h.symm),
        show (s.communities.getD b default).total_degree
          = (commAt s b).total_degree from rfl, htot b hb]
      rfl
    have hTb : modularityTerm (moveNodeTo s v b) 1 (s.m * (1/2)) b
        = (((∑ u ∈ Finset.range (nN s), if commOf s u = b
              then sharedSum s u b + srOf s u else 0)
            + (2 * sharedSum s v b + srOf s v)) / 2) / (s.m * (1/2))
          - 1 * (((∑ u ∈ Finset.range (nN s), if commOf s u = b then degOf s u else 0)
              + degOf s v) / (2 * (s.m * (1/2)))) ^ 2 := by
      rw [modularityTerm_eq, nN_moveNodeTo,
        Asum_moveNodeTo_target s v b hv hne hself hl hsym,
        Dsum_moveNodeTo_target s v b hv hne]
    have hTa : modularityTerm (moveNodeTo s v b) 1 (s.m * (1/2)) (commOf s v)
        = (((∑ u ∈ Finset.range (nN s), if commOf s u = commOf s v
              then sharedSum s u (commOf s v) + srOf s u else 0)
            - (2 * sharedSum s v (commOf s v) + srOf s v)) / 2) / (s.m * (1/2))
          - 1 * (((∑ u ∈ Finset.range (nN s),
                if commOf s u = commOf s v then degOf s u else 0)
              - degOf s v) / (2 * (s.m * (1/2)))) ^ 2 := by
      rw [modularityTerm_eq, nN_moveNodeTo,
        Asum_moveNodeTo_old s v b hv hne hself hl hsym,
        Dsum_moveNodeTo_old s v b hv hne]
    have hab : commOf s v ≠ b := fun h => hne h.symm
    have hsubpair : ({commOf s v, b} : Finset ℕ) ⊆ Finset.range (nK s) := by
      intro c hcp
      rcases Finset.mem_insert.mp hcp with rfl | hcb
      · exact Finset.mem_range.mpr ha
      · rw [Finset.mem_singleton.mp hcb]
        exact Finset.mem_range.mpr hb
    have hkey : ∀ c ∈ Finset.range (nK s), c ∉ ({commOf s v, b} : Finset ℕ) →
        modularityTerm (moveNodeTo s v b) 1 (s.m * (1/2)) c
          - modularityTerm s 1 (s.m * (1/2)) c = 0 := by
      intro c _ hcp
      have hca : c ≠ commOf s v := fun h => hcp (by rw [h]; exact Finset.mem_insert_self _ _)
      have hcb : c ≠ b := fun h => hcp (by
        rw [h]; exact Finset.mem_insert_of_mem (Finset.mem_singleton_self _))
      rw [modularityTerm_eq, nN_moveNodeTo, Asum_moveNodeTo_other s v b hv c hca hcb,
        Dsum_moveNodeTo_other s v b hv c hca hcb, modularityTerm_eq]
      ring
    have hpair : (∑ c ∈ ({commOf s v, b} : Finset ℕ),
          (modularityTerm (moveNodeTo s v b) 1 (s.m * (1/2)) c
            - modularityTerm s 1 (s.m * (1/2)) c))
        = (modularityTerm (moveNodeTo s v b) 1 (s.m * (1/2)) (commOf s v)
            - modularityTerm s 1 (s.m * (1/2)) (commOf s v))
          + (modularityTerm (moveNodeTo s v b) 1 (s.m * (1/2)) b
            - modularityTerm s 1 (s.m * (1/2)) b) := Finset.sum_pair hab
    have hdiff : (∑ c ∈ Finset.range (nK s),
          modularityTerm (moveNodeTo s v b) 1 (s.m * (1/2)) c)
        - (∑ c ∈ Finset.range (nK s), modularityTerm s 1 (s.m * (1/2)) c)
        = (modularityTerm (moveNodeTo s v b) 1 (s.m * (1/2)) (commOf s v)
            - modularityTerm s 1 (s.m * (1/2)) (commOf s v))
          + (modularityTerm (moveNodeTo s v b) 1 (s.m * (1/2)) b
            - modularityTerm s 1 (s.m * (1/2)) b) := by
      rw [← Finset.sum_sub_distrib, ← hpair]
      exact (Finset.sum_subset hsubpair hkey).symm
    by_cases hsing : (s.communities.getD (commOf s v) default).nodes.length = 1
    · have hqa : q s v (commOf s v) (sharedSum s v (commOf s v)) 1 = 0 := by
        simp only [q]
        rw [if_pos hsing, if_pos trivial]
      have hvmem : v ∈ (s.communities.getD (commOf s v) default).nodes :=
        hmem2 _ ha v hv rfl
      obtain ⟨u0, hu0⟩ := List.length_eq_one.mp hsing
      rw [hu0] at hvmem
      obtain rfl := List.mem_singleton.mp hvmem
      have hDa : (∑ u ∈ Finset.range (nN s),
          if commOf s u = commOf s v then degOf s u else 0) = degOf s v := by
        have h1 : (∑ u ∈ Finset.range (nN s),
            if commOf s u = commOf s v then degOf s u else 0)
            = (if commOf s v = commOf s v then degOf s v else 0) :=
          Finset.sum_eq_single_of_mem v (Finset.mem_range.mpr hv) (by
            intro u hu2 huv
            have hnc : ¬ commOf s u = commOf s v := by
              intro hcu
              have hmemu : u ∈ (s.communities.getD (commOf s v) default).nodes :=
                hmem2 _ ha u (Finset.mem_range.mp hu2) hcu
              rw [hu0] at hmemu
              exact huv (List.mem_singleton.mp hmemu)
            rw [if_neg hnc])
        rw [h1, if_pos rfl]
      have hsa : sharedSum s v (commOf s v) = 0 := by
        rw [sharedSum_eq_group s v hl (commOf s v)]
        refine Finset.sum_eq_zero ?_
        intro u hu2
        by_cases hcu : commOf s u = commOf s v
        · have hmemu : u ∈ (s.communities.getD (commOf s v) default).nodes :=
            hmem2 _ ha u (Finset.mem_range.mp hu2) hcu
          rw [hu0] at hmemu
          obtain rfl := List.mem_singleton.mp hmemu
          rw [if_pos hcu, edgeWeightTo_self_zero s u hself]
        · rw [if_neg hcu]
      rw [hcm_t, hcm_s, hqb, hqa]
      rw [hTa, hTb, modularityTerm_eq s 1 (s.m * (1/2)) (commOf s v),
        modularityTerm_eq s 1 (s.m * (1/2)) b, hsa, hDa] at hdiff
      have hEq : (∑ c ∈ Finset.range (nK s),
            modularityTerm (moveNodeTo s v b) 1 (s.m * (1/2)) c)
          - (∑ c ∈ Finset.range (nK s), modularityTerm s 1 (s.m * (1/2)) c)
          = (1 * (sharedSum s v b * 2)
              - (degOf s v * (∑ u ∈ Finset.range (nN s),
                  if commOf s u = b then degOf s u else 0)) / (s.m * (1/2))) / s.m
            - 0 := by
        rw [hdiff]
        field_simp
        ring
      linarith [hEq]
    · have hqa : q s v (commOf s v) (sharedSum s v (commOf s v)) 1
          = (1 * (sharedSum s v (commOf s v) * 2)
              - (degOf s v * ((∑ u ∈ Finset.range (nN s),
                  if commOf s u = commOf s v then degOf s u else 0) - degOf s v))
                / (s.m * (1/2))) / s.m := by
        simp only [q]
        rw [if_pos trivial, if_neg hsing,
          show (s.communities.getD (commOf s v) default).total_degree
            = (commAt s (commOf s v)).total_degree from rfl, htot _ ha]
        rfl
      rw [hcm_t, hcm_s, hqb, hqa]
      rw [hTa, hTb, modularityTerm_eq s 1 (s.m * (1/2)) (commOf s v),
        modularityTerm_eq s 1 (s.m * (1/2)) b] at hdiff
      have hEq : (∑ c ∈ Finset.range (nK s),
            modularityTerm (moveNodeTo s v b) 1 (s.m * (1/2)) c)
          - (∑ c ∈ Finset.range (nK s), modularityTerm s 1 (s.m * (1/2)) c)
          = (1 * (sharedSum s v b * 2)
              - (degOf s v * (∑ u ∈ Finset.range (nN s),
                  if commOf s u = b then degOf s u else 0)) / (s.m * (1/2))) / s.m
            - (1 * (sharedSum s v (commOf s v) * 2)
              - (degOf s v * ((∑ u ∈ Finset.range (nN s),
                  if commOf s u = commOf s v then degOf s u else 0) - degOf s v))
                / (s.m * (1/2))) / s.m := by
        rw [hdiff]
        field_simp
        ring
      linarith [hEq]

/-- Witness for C1 at a concrete input: the very move of the
counterexample (`c1State`, node `3` into community `4`) satisfies the
amended identity with the stay term, exactly. -/
theorem modularity_delta_with_stay_witness :
    WF c1State ∧ (3 : ℕ) < nN c1State ∧ (4 : ℕ) < nK c1State ∧
    (4 : ℕ) ≠ commOf c1State 3 ∧
    compute_modularity (moveNodeTo c1State 3 4) 1
      = compute_modularity c1State 1 + q c1State 3 4 (sharedSum c1State 3 4) 1
        - q c1State 3 (commOf c1State 3) (sharedSum c1State 3 (commOf c1State 3)) 1 :=
  ⟨by decide, by decide, by decide, by decide,
    modularity_delta_with_stay c1State (by decide) 3 4 (by decide) (by decide) (by decide)⟩
